import Mathlib

/-!
The habanalabs common header: range checks, ring constants, polling macros, and
models of the queue ring, the sequence numbers, the rollback and the page tables.

A shallow embedding of `drivers/misc/habanalabs/common/habanalabs.h`.

* `u64` / `u32` values are natural numbers; every C operation that can wrap is
  written with an explicit `% 2 ^ 64` or `% 2 ^ 32`.
* Object-like macros become constants, function-like macros and `static inline`
  functions become functions of the same name.
* Functions that the header only declares are modelled from the prose
  specification; their doc comments say so.
-/

namespace Habanalabs

/-! ## Constants of the header -/

/-- Macro of the header: `#define HL_RSVD_SOBS 4`. -/
def HL_RSVD_SOBS : Nat := 4

/-- Macro of the header: `#define HL_RSVD_MONS 2`. -/
def HL_RSVD_MONS : Nat := 2

/-- Macro of the header: `#define HL_RSVD_SOBS_IN_USE 2`. -/
def HL_RSVD_SOBS_IN_USE : Nat := 2

/-- Macro of the header: `#define HL_RSVD_MONS_IN_USE 1`. -/
def HL_RSVD_MONS_IN_USE : Nat := 1

/-- Macro of the header: `#define HL_MAX_SOB_VAL (1 << 15)`. -/
def HL_MAX_SOB_VAL : Nat := 1 <<< 15

/-- Macro of the header: `#define HL_QUEUE_LENGTH 4096`. -/
def HL_QUEUE_LENGTH : Nat := 4096

/-- Macro of the header: `#define HL_CQ_LENGTH HL_QUEUE_LENGTH`. -/
def HL_CQ_LENGTH : Nat := HL_QUEUE_LENGTH

/-- Macro of the header: `#define HL_EQ_LENGTH 64`. -/
def HL_EQ_LENGTH : Nat := 64

/-! ## Function-like macros -/

/-- Macro of the header: `#define IS_POWER_OF_2(n) (n != 0 && ((n & (n - 1)) == 0))`,
for an unsigned 32-bit `n`: the subtraction is the wrapping `u32` subtraction (it is
only evaluated for `n != 0`, where it does not wrap). -/
def IS_POWER_OF_2 (n : Nat) : Bool :=
  n != 0 && ((n &&& ((n + 2 ^ 32 - 1) % 2 ^ 32)) == 0)

/-- Macro of the header:
`#define IS_MAX_PENDING_CS_VALID(n) (IS_POWER_OF_2(n) && (n > 1))`. -/
def IS_MAX_PENDING_CS_VALID (n : Nat) : Bool :=
  IS_POWER_OF_2 n && decide (n > 1)

/-- Macro of the header: `#define hl_pi_2_offset(pi) ((pi) & (HL_QUEUE_LENGTH - 1))`. -/
def hl_pi_2_offset (pi : Nat) : Nat :=
  pi &&& (HL_QUEUE_LENGTH - 1)

/-! ## Address range checks -/

/-- Function of the header: `static inline bool hl_mem_area_inside_range(u64 address,
u32 size, u64 range_start_address, u64 range_end_address)`.
`end_address` is the `u64` sum, so it wraps modulo `2 ^ 64`. -/
def hl_mem_area_inside_range
    (address size range_start_address range_end_address : Nat) : Bool :=
  let end_address := (address + size) % 2 ^ 64
  if decide (address ≥ range_start_address) &&
      decide (end_address ≤ range_end_address) &&
      decide (end_address > address) then
    true
  else
    false

/-- Function of the header: `static inline bool hl_mem_area_crosses_range(u64 address,
u32 size, u64 range_start_address, u64 range_end_address)`.
`end_address` is the `u64` sum, so it wraps modulo `2 ^ 64`; the three `if`
statements are tried in the order of the source. -/
def hl_mem_area_crosses_range
    (address size range_start_address range_end_address : Nat) : Bool :=
  let end_address := (address + size) % 2 ^ 64
  if decide (address ≥ range_start_address) &&
      decide (address < range_end_address) then
    true
  else if decide (end_address ≥ range_start_address) &&
      decide (end_address < range_end_address) then
    true
  else if decide (address < range_start_address) &&
      decide (end_address ≥ range_end_address) then
    true
  else
    false

/-! ## Command-submission sequence numbers (modelled from the specification)

The header only declares `struct hl_ctx`; the function that hands out sequence
numbers is not part of it. -/

/-- Modelled from the spec: the fence of one command submission (section 3,
"Fence/Completion Object": signaled or not signaled), together with the
sequence number it was created for (`hl_cs_compl.cs_seq`). The fence code is
not in the header. -/
structure hl_fence where
  cs_seq : Nat
  signaled : Bool
deriving DecidableEq

/-- Modelled from the spec: the part of `struct hl_ctx` that section 3 calls the
"pending-fence table indexed by sequence" (`cs_pending`, every entry carries its
sequence key) and the next sequence number (`cs_sequence`). The submission
counter is the "monotonically increasing sequence number" of section 3. -/
structure hl_ctx where
  cs_pending : List hl_fence
  cs_sequence : Nat
deriving DecidableEq

/-- Operations on one context: a submission with the given job count, and the
signalling of the fence of a sequence (by completion, timeout or rollback). -/
inductive ctx_op where
  | submit (job_count : Nat)
  | signal (seq : Nat)
deriving DecidableEq

/-- Modelled from the spec: `submit` of section 4.3, whose implementation is
missing from the header. It "validates job count against the maximum in-flight
limit", "assigns the next sequence number", "creates the fence, inserts into the
context's pending table" and "returns the sequence number to the caller". A
rejected submission hands out no number and leaves the context unchanged. -/
def submit (max_pending_cs : Nat) (ctx : hl_ctx) (job_count : Nat) : Option Nat × hl_ctx :=
  if max_pending_cs < job_count then
    (none, ctx)
  else
    (some ctx.cs_sequence,
      { cs_pending := { cs_seq := ctx.cs_sequence, signaled := false } :: ctx.cs_pending,
        cs_sequence := ctx.cs_sequence + 1 })

/-- Modelled from the spec: signalling the fence of sequence `seq` ("signaled
once by completion or timeout", section 3); the fence code is not in the
header. -/
def signal_fence (ctx : hl_ctx) (seq : Nat) : hl_ctx :=
  { ctx with
    cs_pending := ctx.cs_pending.map fun f =>
      if f.cs_seq = seq then { f with signaled := true } else f }

/-- The fence stored for sequence `seq` in `cs_pending` is outstanding: some
entry for `seq` has not been signaled. -/
def fence_outstanding (ctx : hl_ctx) (seq : Nat) : Bool :=
  ctx.cs_pending.any fun f => decide (f.cs_seq = seq) && !f.signaled

/-- Runs a sequence of operations on one context and collects, in order, the
sequence numbers handed out to the callers. -/
def ctx_run (max_pending_cs : Nat) : hl_ctx → List ctx_op → hl_ctx × List Nat
  | ctx, [] => (ctx, [])
  | ctx, ctx_op.submit job_count :: ops =>
    match submit max_pending_cs ctx job_count with
    | (some seq, ctx1) =>
      ((ctx_run max_pending_cs ctx1 ops).1, seq :: (ctx_run max_pending_cs ctx1 ops).2)
    | (none, ctx1) => ctx_run max_pending_cs ctx1 ops
  | ctx, ctx_op.signal seq :: ops => ctx_run max_pending_cs (signal_fence ctx seq) ops

/-! ## Hardware queue ring (modelled from the specification)

The header declares `struct hl_hw_queue`, `hl_hw_queue_schedule_cs` and
`hl_hw_queue_inc_ci_kernel` but contains none of their bodies. The ring
capacity `HL_QUEUE_LENGTH` and the slot computation `hl_pi_2_offset` are the
ones of the header. -/

/-- Error taxonomy of section 7, restricted to the error of the ring. -/
inductive hl_error where
  | QueueFull
deriving DecidableEq

/-- Modelled from the spec: the ring part of `struct hl_hw_queue` (section 3,
"Hardware Queue"): the ring of descriptors at `kernel_address`, the shadow
array "mapping ring slot to pending job", the producer index `pi` and the
consumer index `ci` as calculated by the driver. Both indices are 32-bit fields
and wrap modulo `2 ^ 32`. Descriptors and job handles are numbers. -/
structure hl_hw_queue where
  ring : Nat → Option Nat
  shadow_queue : Nat → Option Nat
  pi : Nat
  ci : Nat

/-- Modelled from the spec: `reset` of section 4.1, "indices zeroed, shadow
cleared". -/
def hl_hw_queue_reset : hl_hw_queue :=
  { ring := fun _ => none, shadow_queue := fun _ => none, pi := 0, ci := 0 }

/-- Number of descriptors that were enqueued and not yet retired: the distance
from the consumer index to the producer index in 32-bit arithmetic. -/
def in_flight (q : hl_hw_queue) : Nat :=
  (q.pi + 2 ^ 32 - q.ci) % 2 ^ 32

/-- Slot `s` holds a descriptor that was enqueued and not yet retired: it is one
of the `in_flight` slots that follow the consumer index. -/
def live_slot (q : hl_hw_queue) (s : Nat) : Prop :=
  ∃ k, k < in_flight q ∧ s = hl_pi_2_offset ((q.ci + k) % 2 ^ 32)

/-- Modelled from the spec: `enqueue` of section 4.1, the per-queue step of
`hl_hw_queue_schedule_cs`, whose body is missing from the header. It "writes a
hardware-specific descriptor at `producer_index mod capacity`, records the
originating job in the shadow array at the same slot, advances the producer
index", and "fails with `QueueFull` if producer would overtake an unretired
consumer slot". The result is the slot written, or the error, and the queue
afterwards. -/
def enqueue (q : hl_hw_queue) (desc job : Nat) : Except hl_error Nat × hl_hw_queue :=
  if HL_QUEUE_LENGTH ≤ in_flight q then
    (Except.error hl_error.QueueFull, q)
  else
    (Except.ok (hl_pi_2_offset q.pi),
      { q with
        ring := Function.update q.ring (hl_pi_2_offset q.pi) (some desc)
        shadow_queue := Function.update q.shadow_queue (hl_pi_2_offset q.pi) (some job)
        pi := (q.pi + 1) % 2 ^ 32 })

/-- Events observed on one queue: a job recorded at a slot by a successful
enqueue, and the shadow entry found at a slot when that slot is retired. -/
inductive queue_event where
  | enq (slot job : Nat)
  | ret (slot : Nat) (job : Option Nat)
deriving DecidableEq

/-- Modelled from the spec: `hl_hw_queue_inc_ci_kernel`, declared but not
defined in the header: the driver retires the shadow job at the slot of the
consumer index and advances the consumer index by one. -/
def hl_hw_queue_inc_ci_kernel (q : hl_hw_queue) : queue_event × hl_hw_queue :=
  (queue_event.ret (hl_pi_2_offset q.ci) (q.shadow_queue (hl_pi_2_offset q.ci)),
    { q with ci := (q.ci + 1) % 2 ^ 32 })

/-- Retires `n` consecutive slots, oldest first. -/
def retire_slots : Nat → hl_hw_queue → List queue_event × hl_hw_queue
  | 0, q => ([], q)
  | n + 1, q =>
    ((hl_hw_queue_inc_ci_kernel q).1 :: (retire_slots n (hl_hw_queue_inc_ci_kernel q).2).1,
      (retire_slots n (hl_hw_queue_inc_ci_kernel q).2).2)

/-- Modelled from the spec: `advance_consumer(new_ci)` of section 4.1: "for
each slot between the previously observed consumer index and the new one, it
retires the corresponding shadow job". The hardware only retires descriptors
that were enqueued, so a `new_ci` beyond the producer index is not an event
that can occur; it is reported as `none`. -/
def advance_consumer (q : hl_hw_queue) (new_ci : Nat) : Option (List queue_event × hl_hw_queue) :=
  if (new_ci + 2 ^ 32 - q.ci) % 2 ^ 32 ≤ in_flight q then
    some (retire_slots ((new_ci + 2 ^ 32 - q.ci) % 2 ^ 32) q)
  else
    none

/-- Operations on one hardware queue: the submitter enqueues a descriptor for a
job, the completion path advances the consumer index. -/
inductive queue_op where
  | enqueue (desc job : Nat)
  | advance_consumer (new_ci : Nat)
deriving DecidableEq

/-- Runs an interleaving of enqueue and retire operations and returns the final
queue with the events in the order they happened. A rejected enqueue leaves no
event. The result is `none` when the interleaving asks the hardware to retire
a descriptor that was never enqueued. -/
def queue_run : hl_hw_queue → List queue_op → Option (hl_hw_queue × List queue_event)
  | q, [] => some (q, [])
  | q, queue_op.enqueue desc job :: ops =>
    match enqueue q desc job with
    | (Except.ok slot, q1) =>
      (queue_run q1 ops).map fun r => (r.1, queue_event.enq slot job :: r.2)
    | (Except.error _, q1) => queue_run q1 ops
  | q, queue_op.advance_consumer new_ci :: ops =>
    match advance_consumer q new_ci with
    | some (evs, q1) => (queue_run q1 ops).map fun r => (r.1, evs ++ r.2)
    | none => none

/-- Event log of an interleaving started on a freshly reset queue. -/
def queue_log (ops : List queue_op) : Option (List queue_event) :=
  (queue_run hl_hw_queue_reset ops).map Prod.snd

/-- Job most recently enqueued at slot `s` according to the log (oldest event
first), if any: the log is replayed and retirements are ignored. -/
def last_enqueued (s : Nat) (log : List queue_event) : Option Nat :=
  log.foldl
    (fun cur e =>
      match e with
      | queue_event.enq slot job => if slot = s then some job else cur
      | queue_event.ret _ _ => cur)
    none

/-- Job occupying slot `s` unretired after the events of the log (oldest event
first): the log is replayed, an enqueue at `s` fills the slot and a retirement
of `s` empties it. -/
def unretired (s : Nat) (log : List queue_event) : Option Nat :=
  log.foldl
    (fun cur e =>
      match e with
      | queue_event.enq slot job => if slot = s then some job else cur
      | queue_event.ret slot _ => if slot = s then none else cur)
    none

/-- What the ring discipline demands of one event, given the events before it:
an enqueue goes to a slot that holds no unretired job, and a retirement finds
a job, which is the one most recently enqueued at that slot and still
unretired there. -/
def event_ok (hist : List queue_event) : queue_event → Prop
  | queue_event.enq s _ => unretired s hist = none
  | queue_event.ret s job =>
    job ≠ none ∧ job = last_enqueued s hist ∧ job = unretired s hist

/-- Every event of `evs` is acceptable after the history `hist` extended by the
events before it. -/
def events_ok : List queue_event → List queue_event → Prop
  | _, [] => True
  | hist, e :: evs => event_ok hist e ∧ events_ok (hist ++ [e]) evs

/-- Ring invariant, with the unbounded numbers `P` of accepted enqueues and `C`
of retirements as ghost counters: the stored indices are these counters modulo
`2 ^ 32`, at most `HL_QUEUE_LENGTH` descriptors are in flight, every in-flight
position holds in the shadow array the job the log records as enqueued last and
unretired there, and every other slot is recorded as free. -/
def ring_inv (P C : Nat) (q : hl_hw_queue) (hist : List queue_event) : Prop :=
  q.pi = P % 2 ^ 32 ∧ q.ci = C % 2 ^ 32 ∧ C ≤ P ∧ P ≤ C + 4096 ∧
  (∀ k, C ≤ k → k < P → ∃ j, q.shadow_queue (k % 4096) = some j ∧
    last_enqueued (k % 4096) hist = some j ∧ unretired (k % 4096) hist = some j) ∧
  (∀ s, (∀ k, C ≤ k → k < P → k % 4096 ≠ s) → unretired s hist = none)

/-! ## Compile-time guard, polling macros and sync-object constants -/

/-- Macro of the header: `#define HL_SIM_MAX_TIMEOUT_US 10000000`, ten seconds. -/
def HL_SIM_MAX_TIMEOUT_US : Nat := 10000000

/-- Preprocessor guard of the header:
`#if (HL_MAX_JOBS_PER_CS > HL_QUEUE_LENGTH)` followed by
`#error "HL_QUEUE_LENGTH must be greater than HL_MAX_JOBS_PER_CS"`.
The result is true when the `#error` fires. `HL_MAX_JOBS_PER_CS` comes from the
uapi header, which is not part of the sources at hand, so both values are
arguments. -/
def queue_length_guard_fires (max_jobs_per_cs queue_length : Nat) : Bool :=
  decide (max_jobs_per_cs > queue_length)

/-- Deadline offset, in microseconds, of `hl_poll_timeout`,
`hl_poll_timeout_memory` and `hl_poll_timeout_device_memory`, whose first
statement is the same text:
`if (hdev->pdev) __timeout = ktime_add_us(ktime_get(), timeout_us); else
__timeout = ktime_add_us(ktime_get(), min((u64)(timeout_us * 10),
(u64) HL_SIM_MAX_TIMEOUT_US));`.
`pdev` tells whether `hdev->pdev` is non-NULL. `timeout_us` is a macro argument
of an unsigned type of `bits` bits. An operand narrower than `int` is promoted
to `int`, so for fewer than 32 bits the product is computed in `int`, where ten
times a value of such a type fits, and is the exact product; from 32 bits on
the product is computed in the type itself and wraps modulo `2 ^ bits`. The
product is then converted to `u64`; the argument of `ktime_add_us` is a
`u64`. -/
def hl_poll_timeout_offset (pdev : Bool) (bits timeout_us : Nat) : Nat :=
  if pdev then
    timeout_us % 2 ^ 64
  else
    min ((if bits < 32 then timeout_us * 10 else (timeout_us * 10) % 2 ^ bits) % 2 ^ 64)
      (HL_SIM_MAX_TIMEOUT_US % 2 ^ 64)

/-- Result of one run of `hl_poll_timeout`: the value of the statement
expression, the final content of `val` and the number of register reads that
were performed. -/
structure poll_result where
  ret : Int
  val : Nat
  reads_done : Nat
deriving DecidableEq

/-- The `for (;;)` loop of `hl_poll_timeout`. The `i`-th register read
`RREG32(addr)` returns `reads i`, the `i`-th call of `ktime_get()` returns
`clock i` (call 0 is the one that computes `__timeout`), and `cond` is the
condition as a function of `val`. Iteration `i` reads `reads i`; if `cond`
holds it breaks; if `timeout_us` is nonzero and the clock is past `deadline`
it reads once more and breaks; otherwise it sleeps and goes on. Because of the
short-circuit `timeout_us && ...` the clock is only read when `timeout_us` is
nonzero. The result is the final `val` with the number of reads, or `none`
when the loop is still running after `fuel` iterations. -/
def poll_loop (cond : Nat → Bool) (reads clock : Nat → Nat) (timeout_us deadline : Nat) :
    Nat → Nat → Option (Nat × Nat)
  | 0, _ => none
  | fuel + 1, i =>
    if cond (reads i) then
      some (reads i, i + 1)
    else if timeout_us ≠ 0 ∧ clock (i + 1) > deadline then
      some (reads (i + 1), i + 2)
    else
      poll_loop cond reads clock timeout_us deadline fuel (i + 1)

/-- Macro of the header: `hl_poll_timeout(hdev, addr, val, cond, sleep_us,
timeout_us)`. The deadline is `ktime_add_us(ktime_get(), offset)`, that is the
first clock reading plus the offset in nanoseconds; after the loop the value
is `(cond) ? 0 : -ETIMEDOUT`. The errno constant `ETIMEDOUT` is not defined in
the header and is an argument. `sleep_us` only decides how long the loop
sleeps, which is part of the clock readings. -/
def hl_poll_timeout (ETIMEDOUT : Nat) (pdev : Bool) (bits : Nat) (cond : Nat → Bool)
    (reads clock : Nat → Nat) (timeout_us fuel : Nat) : Option poll_result :=
  (poll_loop cond reads clock timeout_us
      (clock 0 + 1000 * hl_poll_timeout_offset pdev bits timeout_us) fuel 0).map
    fun r => { ret := if cond r.1 then 0 else -(ETIMEDOUT : Int), val := r.1, reads_done := r.2 }

/-- Storing a value into a `u16` field such as `hl_hw_queue.next_sob_val` or
`hl_cs_compl.sob_val` keeps the low 16 bits. -/
def store_u16 (v : Nat) : Nat :=
  v % 2 ^ 16

/-! ## Rollback of command submissions (modelled from the specification)

The header declares `hl_cs_rollback_all` and `struct hl_cs`; the body of the
function is not part of it. -/

/-- Modelled from the spec: the part of `struct hl_cs` that the rollback of
section 4.3 looks at. `sequence`, `submitted`, `completed`, `timedout`,
`tdr_active` and `aborted` are the fields of the header; `mirror_node` tells
whether the submission is linked in the device-wide tracking list
`hw_queues_mirror_list`; `fence_signals` counts how often the fence of the
submission was signaled, `fence_error` whether it carries an error, and `jobs`
are the jobs and buffers the submission still holds. -/
structure hl_cs where
  sequence : Nat
  submitted : Bool
  completed : Bool
  timedout : Bool
  tdr_active : Bool
  aborted : Bool
  mirror_node : Bool
  fence_signals : Nat
  fence_error : Bool
  jobs : List Nat
deriving DecidableEq

/-- The submission is pending for the rollback: it is on the tracking list, it
was not completed and its fence is outstanding. -/
def cs_pending_rollback (cs : hl_cs) : Bool :=
  cs.mirror_node && !cs.completed && decide (cs.fence_signals = 0)

/-- Modelled from the spec: what `rollback_all` of section 4.3 does to one
submission of the tracking list: it "signals every outstanding fence with an
abort error, and releases associated jobs/buffers"; the submission leaves the
tracking list. "A CS already completed before rollback runs is a no-op." -/
def cs_rollback (cs : hl_cs) : hl_cs :=
  if cs_pending_rollback cs then
    { cs with
      aborted := true
      mirror_node := false
      fence_signals := cs.fence_signals + 1
      fence_error := true
      jobs := [] }
  else
    cs

/-- Modelled from the spec: `hl_cs_rollback_all`, declared but not defined in
the header. The device is given by its command submissions; the function walks
them and returns the device afterwards together with the sequence numbers of
the fences it signaled, in order. -/
def hl_cs_rollback_all (dev : List hl_cs) : List hl_cs × List Nat :=
  (dev.map cs_rollback, (dev.filter cs_pending_rollback).map fun cs => cs.sequence)

/-! ## MMU page tables (modelled from the specification)

The header declares `hl_mmu_map` and `hl_mmu_unmap` and defines
`struct pgt_info` and `struct hl_mmu_properties`; the page-table code itself is
not part of it. -/

/-- Structure of the header: `struct hl_mmu_properties`, the shift and mask of
each of the five hops of one translation domain. -/
structure hl_mmu_properties where
  start_addr : Nat
  end_addr : Nat
  hop0_shift : Nat
  hop1_shift : Nat
  hop2_shift : Nat
  hop3_shift : Nat
  hop4_shift : Nat
  hop0_mask : Nat
  hop1_mask : Nat
  hop2_mask : Nat
  hop3_mask : Nat
  hop4_mask : Nat
  page_size : Nat

/-- Shift of hop `lvl`, one of the five shift fields. -/
def hop_shift (p : hl_mmu_properties) : Nat → Nat
  | 0 => p.hop0_shift
  | 1 => p.hop1_shift
  | 2 => p.hop2_shift
  | 3 => p.hop3_shift
  | _ => p.hop4_shift

/-- Mask of hop `lvl`, one of the five mask fields. -/
def hop_mask (p : hl_mmu_properties) : Nat → Nat
  | 0 => p.hop0_mask
  | 1 => p.hop1_mask
  | 2 => p.hop2_mask
  | 3 => p.hop3_mask
  | _ => p.hop4_mask

/-- Index of the PTE that translates `va` in a hop table of level `lvl`: the
masked address shifted down ("each level's shift/mask pair", section 4.4). -/
def get_pte_idx (p : hl_mmu_properties) (lvl va : Nat) : Nat :=
  (va &&& hop_mask p lvl) >>> hop_shift p lvl

/-- Key of the hop table of level `lvl` on the walk of `va`: the PTE indices
taken at the levels above it. The root hop has the empty key. Section 9 asks
for an ordinary associative map in place of the hash keyed by raw addresses. -/
def hop_key (p : hl_mmu_properties) (va lvl : Nat) : List Nat :=
  (List.range lvl).map fun l => get_pte_idx p l va

/-- A page-table entry: not present, present and pointing to the next hop
table, or present and last, holding the physical address of the page. -/
inductive hl_pte where
  | invalid
  | hop
  | page (phys_addr : Nat)
deriving DecidableEq

/-- Modelled from the spec: `struct pgt_info`, one allocated hop table
(section 3, "Page-Table Node"): the counter `num_of_ptes` of the header, an
`int`, and the entries of the table. -/
structure pgt_info where
  num_of_ptes : Int
  ptes : Nat → hl_pte

/-- Modelled from the spec: the MMU part of `struct hl_ctx`, the table
`mmu_shadow_hash` that holds the `pgt_info` of every allocated hop. -/
structure hl_mmu_ctx where
  mmu_shadow_hash : List Nat → Option pgt_info

/-- A freshly allocated hop table: no entry is present. -/
def empty_hop : pgt_info :=
  { num_of_ptes := 0, ptes := fun _ => hl_pte.invalid }

/-- Modelled from the spec: the context after `hl_mmu_ctx_init`, which owns its
root hop and nothing else. -/
def hl_mmu_ctx_init : hl_mmu_ctx :=
  { mmu_shadow_hash := fun key => if key = [] then some empty_hop else none }

/-- Writes a present entry at index `idx` of the hop `key`. The counter of
live PTEs of the hop grows when the entry was not present before; an entry
that is overwritten was live already, so the number of live PTEs stays. -/
def write_pte (h : List Nat → Option pgt_info) (key : List Nat) (idx : Nat) (pte : hl_pte) :
    List Nat → Option pgt_info :=
  match h key with
  | none => h
  | some node =>
    Function.update h key (some
      { num_of_ptes :=
          if node.ptes idx = hl_pte.invalid then node.num_of_ptes + 1 else node.num_of_ptes
        ptes := Function.update node.ptes idx pte })

/-- The entry of `va` in the hop of level `lvl` points to a next hop and that
hop is allocated. -/
def next_hop_present (p : hl_mmu_properties) (va lvl : Nat)
    (h : List Nat → Option pgt_info) : Bool :=
  match h (hop_key p va lvl) with
  | none => false
  | some node =>
    decide (node.ptes (get_pte_idx p lvl va) = hl_pte.hop) &&
      (h (hop_key p va (lvl + 1))).isSome

/-- The walk of `map`: `remaining` hops are still to be descended from level
`lvl`. A missing next hop is allocated and entered in the current hop; at the
last hop the leaf PTE is written. -/
def map_walk (p : hl_mmu_properties) (va pa : Nat) :
    Nat → Nat → (List Nat → Option pgt_info) → List Nat → Option pgt_info
  | 0, lvl, h => write_pte h (hop_key p va lvl) (get_pte_idx p lvl va) (hl_pte.page pa)
  | remaining + 1, lvl, h =>
    if next_hop_present p va lvl h then
      map_walk p va pa remaining (lvl + 1) h
    else
      map_walk p va pa remaining (lvl + 1)
        (write_pte (Function.update h (hop_key p va (lvl + 1)) (some empty_hop))
          (hop_key p va lvl) (get_pte_idx p lvl va) hl_pte.hop)

/-- Modelled from the spec: `hl_mmu_map` of section 4.4, declared but not
defined in the header: it "walks hops from the context's root, allocating any
missing hop table on demand, writes the leaf PTE, and increments the live-PTE
counter of the leaf's hop node". The page size decides through `last_hop` at
which of the "up to five" hop levels the leaf PTE lies. -/
def hl_mmu_map (p : hl_mmu_properties) (last_hop : Nat → Nat) (ctx : hl_mmu_ctx)
    (va pa page_size : Nat) : hl_mmu_ctx :=
  { mmu_shadow_hash :=
      map_walk p va pa (min (last_hop page_size) 4) 0
        (match ctx.mmu_shadow_hash [] with
          | some _ => ctx.mmu_shadow_hash
          | none => Function.update ctx.mmu_shadow_hash [] (some empty_hop)) }

/-- Error taxonomy of section 7, restricted to the error of the MMU lookup. -/
inductive hl_mmu_error where
  | Unmapped
deriving DecidableEq

/-- The walk of a translation lookup from level `lvl`, over at most `fuel`
hops. -/
def lookup_walk (p : hl_mmu_properties) (va : Nat) (h : List Nat → Option pgt_info) :
    Nat → Nat → Option Nat
  | 0, _ => none
  | fuel + 1, lvl =>
    match h (hop_key p va lvl) with
    | none => none
    | some node =>
      match node.ptes (get_pte_idx p lvl va) with
      | hl_pte.invalid => none
      | hl_pte.page pa => some pa
      | hl_pte.hop => lookup_walk p va h fuel (lvl + 1)

/-- Modelled from the spec: the translation lookup of section 8, a walk over
at most five hops from the root that ends at a last PTE or reports
`Unmapped`. -/
def hl_mmu_lookup (p : hl_mmu_properties) (ctx : hl_mmu_ctx) (va : Nat) :
    Except hl_mmu_error Nat :=
  match lookup_walk p va ctx.mmu_shadow_hash 5 0 with
  | some pa => Except.ok pa
  | none => Except.error hl_mmu_error.Unmapped

/-- Clears the entry at index `idx` of the hop `key` of level `lvl` and
decrements its counter; if the counter reaches zero and the hop is not the
root, the hop is freed, which is reported by `true`. -/
def put_pte (h : List Nat → Option pgt_info) (key : List Nat) (idx lvl : Nat) :
    (List Nat → Option pgt_info) × Bool :=
  match h key with
  | none => (h, false)
  | some node =>
    if node.num_of_ptes - 1 = 0 ∧ lvl ≠ 0 then
      (Function.update h key none, true)
    else
      (Function.update h key (some
        { num_of_ptes := node.num_of_ptes - 1
          ptes := Function.update node.ptes idx hl_pte.invalid }), false)

/-- The walk of `unmap` from level `lvl`, over at most `fuel` hops. It descends
to the last PTE of `va`; on the way back every hop whose next hop was freed
gives up its entry. The result is `none` when `va` is not mapped. -/
def unmap_walk (p : hl_mmu_properties) (va : Nat) :
    Nat → Nat → (List Nat → Option pgt_info) → Option ((List Nat → Option pgt_info) × Bool)
  | 0, _, _ => none
  | fuel + 1, lvl, h =>
    match h (hop_key p va lvl) with
    | none => none
    | some node =>
      match node.ptes (get_pte_idx p lvl va) with
      | hl_pte.invalid => none
      | hl_pte.page _ => some (put_pte h (hop_key p va lvl) (get_pte_idx p lvl va) lvl)
      | hl_pte.hop =>
        match unmap_walk p va fuel (lvl + 1) h with
        | none => none
        | some (h1, freed) =>
          if freed then some (put_pte h1 (hop_key p va lvl) (get_pte_idx p lvl va) lvl)
          else some (h1, false)

/-- Modelled from the spec: `hl_mmu_unmap` of section 4.4, declared but not
defined in the header: it "walks to the leaf, clears the PTE, decrements the
live-PTE counter, and if it reaches zero, frees that hop node and recursively
decrements/frees ancestor hops whose live-table counters also reach zero". The
root hop belongs to the context and stays. The last PTE is recognised on the
walk, so the page size does not steer it. An address that is not mapped leaves
the context unchanged and is reported as `Unmapped`. -/
def hl_mmu_unmap (p : hl_mmu_properties) (ctx : hl_mmu_ctx) (va _page_size : Nat) :
    Except hl_mmu_error Unit × hl_mmu_ctx :=
  match unmap_walk p va 5 0 ctx.mmu_shadow_hash with
  | none => (Except.error hl_mmu_error.Unmapped, ctx)
  | some (h, _) => (Except.ok (), { mmu_shadow_hash := h })

/-- Operations on the page tables of one context. -/
inductive mmu_op where
  | map (va pa page_size : Nat)
  | unmap (va page_size : Nat)
deriving DecidableEq

/-- Runs a sequence of map and unmap operations on a context. -/
def mmu_run (p : hl_mmu_properties) (last_hop : Nat → Nat) : hl_mmu_ctx → List mmu_op → hl_mmu_ctx
  | ctx, [] => ctx
  | ctx, mmu_op.map va pa page_size :: ops =>
    mmu_run p last_hop (hl_mmu_map p last_hop ctx va pa page_size) ops
  | ctx, mmu_op.unmap va page_size :: ops =>
    mmu_run p last_hop (hl_mmu_unmap p ctx va page_size).2 ops

/-- Counter invariant of the shadow hash: every allocated hop has a finite set
of live PTEs whose size is its counter, and every hop other than the root and
outside `spare` has at least one live PTE. -/
def pgt_inv (h : List Nat → Option pgt_info) (spare : List Nat → Prop) : Prop :=
  ∀ key node, h key = some node →
    ∃ S : Finset Nat, (∀ i, node.ptes i ≠ hl_pte.invalid ↔ i ∈ S) ∧
      node.num_of_ptes = (S.card : Int) ∧
      (key ≠ [] → ¬ spare key → S.Nonempty)

/-! ## Auxiliary lemmas -/

/-- Clearing the lowest set bit of a nonzero number gives zero exactly for the
powers of two. -/
theorem and_pred_eq_zero_iff (n : Nat) (hn : n ≠ 0) :
    n &&& (n - 1) = 0 ↔ ∃ k, n = 2 ^ k := by
  induction n using Nat.strong_induction_on with
  | _ n ih =>
    have hsplit : n &&& (n - 1) = 0 ↔
        ((n / 2) &&& ((n - 1) / 2) = 0 ∧ ¬ (n % 2 = 1 ∧ (n - 1) % 2 = 1)) := by
      rw [← Nat.and_div_two, ← Nat.and_mod_two_eq_one]
      omega
    rcases Nat.even_or_odd' n with ⟨m, hm | hm⟩
    · have hm0 : m ≠ 0 := by omega
      have h1 : n / 2 = m := by omega
      have h2 : (n - 1) / 2 = m - 1 := by omega
      rw [hsplit, h1, h2, ih m (by omega) hm0]
      constructor
      · rintro ⟨⟨k, hk⟩, -⟩
        exact ⟨k + 1, by rw [hm, hk, pow_succ]; ring⟩
      · rintro ⟨k, hk⟩
        refine ⟨?_, by omega⟩
        cases k with
        | zero => simp at hk; omega
        | succ k =>
          refine ⟨k, ?_⟩
          rw [pow_succ] at hk
          omega
    · have h1 : n / 2 = m := by omega
      have h2 : (n - 1) / 2 = m := by omega
      rw [hsplit, h1, h2, Nat.and_self]
      constructor
      · rintro ⟨h0, -⟩
        exact ⟨0, by simp [hm, h0]⟩
      · rintro ⟨k, hk⟩
        cases k with
        | zero => simp at hk; refine ⟨by omega, by omega⟩
        | succ k =>
          rw [pow_succ] at hk
          omega

/-- On nonzero 32-bit values the macro `IS_POWER_OF_2` recognises exactly the
powers of two. -/
theorem IS_POWER_OF_2_iff (n : Nat) (hn : n < 2 ^ 32) :
    IS_POWER_OF_2 n = true ↔ ∃ k, n = 2 ^ k := by
  unfold IS_POWER_OF_2
  by_cases h0 : n = 0
  · subst h0
    simp only [bne_self_eq_false, Bool.false_and, Bool.false_eq_true, false_iff]
    rintro ⟨k, hk⟩
    exact absurd hk.symm (by positivity)
  · have hsub : (n + 2 ^ 32 - 1) % 2 ^ 32 = n - 1 := by
      norm_num at hn ⊢
      omega
    rw [hsub]
    simp only [bne_iff_ne, ne_eq, h0, not_false_eq_true, decide_True, Bool.true_and,
      beq_iff_eq, Bool.and_eq_true, decide_eq_true_eq, true_and]
    exact and_pred_eq_zero_iff n h0

/-- The macro `hl_pi_2_offset` reduces an index modulo the ring capacity. -/
theorem hl_pi_2_offset_mod (pi : Nat) : hl_pi_2_offset pi = pi % 4096 := by
  unfold hl_pi_2_offset HL_QUEUE_LENGTH
  exact Nat.and_pow_two_sub_one_eq_mod pi 12

/-- Signalling a fence changes neither the counter nor the sequence keys of the
pending table. -/
theorem signal_fence_keys (ctx : hl_ctx) (seq : Nat) :
    (signal_fence ctx seq).cs_sequence = ctx.cs_sequence ∧
    ∀ f ∈ (signal_fence ctx seq).cs_pending, ∃ g ∈ ctx.cs_pending, f.cs_seq = g.cs_seq := by
  refine ⟨rfl, ?_⟩
  intro f hf
  simp only [signal_fence, List.mem_map] at hf
  obtain ⟨g, hg, rfl⟩ := hf
  refine ⟨g, hg, ?_⟩
  split_ifs <;> rfl

/-- Invariant of a run on one context: the handed-out numbers are strictly
increasing, they lie between the counter before and the counter after, the
counter never decreases and stays above every key of the pending table. -/
theorem ctx_run_invariant (max_pending_cs : Nat) (ops : List ctx_op) :
    ∀ ctx : hl_ctx, (∀ f ∈ ctx.cs_pending, f.cs_seq < ctx.cs_sequence) →
      List.Pairwise (fun a b => a < b) (ctx_run max_pending_cs ctx ops).2 ∧
      (∀ s ∈ (ctx_run max_pending_cs ctx ops).2,
        ctx.cs_sequence ≤ s ∧ s < (ctx_run max_pending_cs ctx ops).1.cs_sequence) ∧
      ctx.cs_sequence ≤ (ctx_run max_pending_cs ctx ops).1.cs_sequence ∧
      (∀ f ∈ (ctx_run max_pending_cs ctx ops).1.cs_pending,
        f.cs_seq < (ctx_run max_pending_cs ctx ops).1.cs_sequence) := by
  induction ops with
  | nil =>
    intro ctx hwf
    exact ⟨List.Pairwise.nil, by simp [ctx_run], le_refl _, hwf⟩
  | cons op ops ih =>
    intro ctx hwf
    cases op with
    | submit job_count =>
      by_cases hrej : max_pending_cs < job_count
      · have hs : submit max_pending_cs ctx job_count = (none, ctx) := by
          simp [submit, hrej]
        simp only [ctx_run, hs]
        exact ih ctx hwf
      · have hs : submit max_pending_cs ctx job_count =
            (some ctx.cs_sequence,
              hl_ctx.mk (hl_fence.mk ctx.cs_sequence false :: ctx.cs_pending)
                (ctx.cs_sequence + 1)) := by
          simp [submit, hrej]
        simp only [ctx_run, hs]
        have hwf1 : ∀ f ∈ (hl_ctx.mk (hl_fence.mk ctx.cs_sequence false :: ctx.cs_pending)
              (ctx.cs_sequence + 1)).cs_pending,
            f.cs_seq < (hl_ctx.mk (hl_fence.mk ctx.cs_sequence false :: ctx.cs_pending)
              (ctx.cs_sequence + 1)).cs_sequence := by
          intro f hf
          simp only [List.mem_cons] at hf
          rcases hf with rfl | hf
          · simp
          · have := hwf f hf
            simp only
            omega
        obtain ⟨h1, h2, h3, h4⟩ := ih _ hwf1
        simp only at h2 h3
        refine ⟨?_, ?_, by omega, h4⟩
        · rw [List.pairwise_cons]
          refine ⟨?_, h1⟩
          intro s hs
          have := (h2 s hs).1
          omega
        · intro s hs
          simp only [List.mem_cons] at hs
          rcases hs with rfl | hs
          · exact ⟨le_refl _, by omega⟩
          · have := h2 s hs
            exact ⟨by omega, this.2⟩
    | signal seq =>
      simp only [ctx_run]
      have hk := signal_fence_keys ctx seq
      have hwf1 : ∀ f ∈ (signal_fence ctx seq).cs_pending,
          f.cs_seq < (signal_fence ctx seq).cs_sequence := by
        intro f hf
        obtain ⟨g, hg, hfg⟩ := hk.2 f hf
        rw [hk.1, hfg]
        exact hwf g hg
      have := ih _ hwf1
      rw [hk.1] at this
      exact this

/-! ### Replaying the event log -/

theorem unretired_enq (s slot job : Nat) (hist : List queue_event) :
    unretired s (hist ++ [queue_event.enq slot job]) =
      if slot = s then some job else unretired s hist := by
  simp [unretired, List.foldl_append]

theorem unretired_ret (s slot : Nat) (job : Option Nat) (hist : List queue_event) :
    unretired s (hist ++ [queue_event.ret slot job]) =
      if slot = s then none else unretired s hist := by
  simp [unretired, List.foldl_append]

theorem last_enqueued_enq (s slot job : Nat) (hist : List queue_event) :
    last_enqueued s (hist ++ [queue_event.enq slot job]) =
      if slot = s then some job else last_enqueued s hist := by
  simp [last_enqueued, List.foldl_append]

theorem last_enqueued_ret (s slot : Nat) (job : Option Nat) (hist : List queue_event) :
    last_enqueued s (hist ++ [queue_event.ret slot job]) = last_enqueued s hist := by
  simp [last_enqueued, List.foldl_append]

theorem events_ok_append (a : List queue_event) :
    ∀ (hist b : List queue_event),
      events_ok hist (a ++ b) ↔ events_ok hist a ∧ events_ok (hist ++ a) b := by
  induction a with
  | nil =>
    intro hist b
    simp [events_ok]
  | cons e a ih =>
    intro hist b
    have hcons : hist ++ e :: a = hist ++ [e] ++ a := by simp
    show (event_ok hist e ∧ events_ok (hist ++ [e]) (a ++ b)) ↔
      (event_ok hist e ∧ events_ok (hist ++ [e]) a) ∧ events_ok (hist ++ e :: a) b
    rw [ih, hcons, and_assoc]

theorem events_ok_split (evs : List queue_event) :
    ∀ hist : List queue_event, events_ok hist evs →
      ∀ (pre : List queue_event) (e : queue_event) (post : List queue_event),
        evs = pre ++ e :: post → event_ok (hist ++ pre) e := by
  intro hist hok pre e post hsplit
  subst hsplit
  have h := ((events_ok_append pre hist (e :: post)).mp hok).2
  exact h.1

/-! ### The ring invariant is kept by every operation -/

theorem two_pow_32 : (2 : Nat) ^ 32 = 4294967296 := by norm_num

theorem offset_of_counter (x X : Nat) (h : x = X % 2 ^ 32) :
    hl_pi_2_offset x = X % 4096 := by
  rw [hl_pi_2_offset_mod, h, two_pow_32]
  omega

theorem succ_of_counter (x X : Nat) (h : x = X % 2 ^ 32) :
    (x + 1) % 2 ^ 32 = (X + 1) % 2 ^ 32 := by
  rw [h, two_pow_32]
  omega

theorem ring_inv_reset : ring_inv 0 0 hl_hw_queue_reset [] := by
  refine ⟨rfl, rfl, le_refl _, by omega, ?_, ?_⟩
  · intro k h1 h2
    omega
  · intro s _
    rfl

theorem in_flight_of_inv (P C : Nat) (q : hl_hw_queue) (hist : List queue_event)
    (h : ring_inv P C q hist) : in_flight q = P - C := by
  obtain ⟨hp, hc, h1, h2, -, -⟩ := h
  unfold in_flight
  rw [hp, hc, two_pow_32]
  omega

theorem enqueue_step (P C : Nat) (q : hl_hw_queue) (hist : List queue_event)
    (desc job : Nat) (h : ring_inv P C q hist) :
    (enqueue q desc job = (Except.error hl_error.QueueFull, q) ∧ P = C + 4096) ∨
    (∃ q1, enqueue q desc job = (Except.ok (P % 4096), q1) ∧
      event_ok hist (queue_event.enq (P % 4096) job) ∧
      ring_inv (P + 1) C q1 (hist ++ [queue_event.enq (P % 4096) job])) := by
  have hfl := in_flight_of_inv P C q hist h
  obtain ⟨hp, hc, h1, h2, h3, h4⟩ := h
  have hslot : hl_pi_2_offset q.pi = P % 4096 := offset_of_counter q.pi P hp
  by_cases hfull : HL_QUEUE_LENGTH ≤ in_flight q
  · left
    refine ⟨by simp [enqueue, hfull], ?_⟩
    unfold HL_QUEUE_LENGTH at hfull
    omega
  · right
    have hlt : P < C + 4096 := by
      unfold HL_QUEUE_LENGTH at hfull
      omega
    have hfree : ∀ k, C ≤ k → k < P → k % 4096 ≠ P % 4096 := by
      intro k hk1 hk2
      omega
    refine ⟨hl_hw_queue.mk (Function.update q.ring (P % 4096) (some desc))
      (Function.update q.shadow_queue (P % 4096) (some job)) ((q.pi + 1) % 2 ^ 32) q.ci,
      by simp only [enqueue, hfull, if_false, hslot], h4 _ hfree, ?_⟩
    refine ⟨succ_of_counter q.pi P hp, hc, by omega, by omega, ?_, ?_⟩
    · intro k hk1 hk2
      by_cases hk : k = P
      · subst hk
        refine ⟨job, ?_, ?_, ?_⟩
        · show Function.update q.shadow_queue (k % 4096) (some job) (k % 4096) = some job
          simp
        · rw [last_enqueued_enq]
          simp
        · rw [unretired_enq]
          simp
      · have hne : k % 4096 ≠ P % 4096 := hfree k hk1 (by omega)
        obtain ⟨j, hj1, hj2, hj3⟩ := h3 k hk1 (by omega)
        refine ⟨j, ?_, ?_, ?_⟩
        · show Function.update q.shadow_queue (P % 4096) (some job) (k % 4096) = some j
          rw [Function.update_noteq hne]
          exact hj1
        · rw [last_enqueued_enq, if_neg (Ne.symm hne)]
          exact hj2
        · rw [unretired_enq, if_neg (Ne.symm hne)]
          exact hj3
    · intro s hs
      have hne : P % 4096 ≠ s := hs P h1 (by omega)
      rw [unretired_enq, if_neg hne]
      exact h4 s (fun k hk1 hk2 => hs k hk1 (by omega))

theorem inc_ci_step (P C : Nat) (q : hl_hw_queue) (hist : List queue_event)
    (h : ring_inv P C q hist) (hlt : C < P) :
    event_ok hist (hl_hw_queue_inc_ci_kernel q).1 ∧
    ring_inv P (C + 1) (hl_hw_queue_inc_ci_kernel q).2
      (hist ++ [(hl_hw_queue_inc_ci_kernel q).1]) := by
  obtain ⟨hp, hc, h1, h2, h3, h4⟩ := h
  have hslot : hl_pi_2_offset q.ci = C % 4096 := offset_of_counter q.ci C hc
  obtain ⟨j, hj1, hj2, hj3⟩ := h3 C (le_refl _) hlt
  simp only [hl_hw_queue_inc_ci_kernel, hslot, hj1]
  refine ⟨⟨by simp, hj2.symm, hj3.symm⟩, ?_⟩
  refine ⟨hp, succ_of_counter q.ci C hc, by omega, by omega, ?_, ?_⟩
  · intro k hk1 hk2
    have hne : C % 4096 ≠ k % 4096 := by omega
    obtain ⟨i, hi1, hi2, hi3⟩ := h3 k (by omega) hk2
    refine ⟨i, hi1, ?_, ?_⟩
    · rw [last_enqueued_ret]
      exact hi2
    · rw [unretired_ret, if_neg hne]
      exact hi3
  · intro s hs
    rw [unretired_ret]
    by_cases hcs : C % 4096 = s
    · rw [if_pos hcs]
    · rw [if_neg hcs]
      apply h4 s
      intro k hk1 hk2
      by_cases hk : k = C
      · subst hk
        exact hcs
      · exact hs k (by omega) hk2

theorem retire_slots_step (n : Nat) :
    ∀ (P C : Nat) (q : hl_hw_queue) (hist : List queue_event),
      ring_inv P C q hist → C + n ≤ P →
        events_ok hist (retire_slots n q).1 ∧
        ring_inv P (C + n) (retire_slots n q).2 (hist ++ (retire_slots n q).1) := by
  induction n with
  | zero =>
    intro P C q hist h _
    simpa [retire_slots, events_ok] using h
  | succ n ih =>
    intro P C q hist h hle
    obtain ⟨hev, hinv⟩ := inc_ci_step P C q hist h (by omega)
    obtain ⟨hevs, hinvs⟩ := ih P (C + 1) _ _ hinv (by omega)
    simp only [retire_slots, events_ok]
    refine ⟨⟨hev, hevs⟩, ?_⟩
    have hassoc : hist ++ (hl_hw_queue_inc_ci_kernel q).1 ::
        (retire_slots n (hl_hw_queue_inc_ci_kernel q).2).1 =
        hist ++ [(hl_hw_queue_inc_ci_kernel q).1] ++
          (retire_slots n (hl_hw_queue_inc_ci_kernel q).2).1 := by
      simp
    rw [hassoc, show C + (n + 1) = C + 1 + n by omega]
    exact hinvs

theorem queue_run_ok (ops : List queue_op) :
    ∀ (P C : Nat) (q : hl_hw_queue) (hist : List queue_event)
      (r : hl_hw_queue × List queue_event),
      ring_inv P C q hist → queue_run q ops = some r → events_ok hist r.2 := by
  induction ops with
  | nil =>
    intro P C q hist r _ hrun
    simp only [queue_run, Option.some.injEq] at hrun
    subst hrun
    trivial
  | cons op ops ih =>
    intro P C q hist r h hrun
    cases op with
    | enqueue desc job =>
      rcases enqueue_step P C q hist desc job h with ⟨herr, -⟩ | ⟨q1, hok, hev, hinv⟩
      · simp only [queue_run, herr] at hrun
        exact ih P C q hist r h hrun
      · simp only [queue_run, hok] at hrun
        cases hr1 : queue_run q1 ops with
        | none => simp [hr1] at hrun
        | some r1 =>
          simp only [hr1, Option.map_some', Option.some.injEq] at hrun
          subst hrun
          exact ⟨hev, ih (P + 1) C q1 _ r1 hinv hr1⟩
    | advance_consumer new_ci =>
      have hfl := in_flight_of_inv P C q hist h
      by_cases hvalid : (new_ci + 2 ^ 32 - q.ci) % 2 ^ 32 ≤ in_flight q
      · obtain ⟨hevs, hinvs⟩ := retire_slots_step ((new_ci + 2 ^ 32 - q.ci) % 2 ^ 32) P C q hist h
          (by have := h.2.2.1; omega)
        simp only [queue_run, advance_consumer, if_pos hvalid] at hrun
        cases hr1 : queue_run (retire_slots ((new_ci + 2 ^ 32 - q.ci) % 2 ^ 32) q).2 ops with
        | none =>
          rw [hr1] at hrun
          simp at hrun
        | some r1 =>
          simp only [hr1, Option.map_some', Option.some.injEq] at hrun
          subst hrun
          rw [events_ok_append]
          exact ⟨hevs, ih P _ _ _ r1 hinvs hr1⟩
      · simp only [queue_run, advance_consumer, if_neg hvalid] at hrun
        simp at hrun

/-! ### The polling loop -/

/-- Shape of a finished polling loop: `val` is the value of the last read, and
the loop was left either because `cond` holds for that value or through the
timeout branch, which needs a nonzero `timeout_us`. -/
theorem poll_loop_some (cond : Nat → Bool) (reads clock : Nat → Nat)
    (timeout_us deadline : Nat) (fuel : Nat) :
    ∀ (i v n : Nat), poll_loop cond reads clock timeout_us deadline fuel i = some (v, n) →
      i + 1 ≤ n ∧ v = reads (n - 1) ∧ (cond v = true ∨ timeout_us ≠ 0) := by
  induction fuel with
  | zero =>
    intro i v n h
    simp [poll_loop] at h
  | succ fuel ih =>
    intro i v n h
    unfold poll_loop at h
    split_ifs at h with h1 h2
    · simp only [Option.some.injEq, Prod.mk.injEq] at h
      obtain ⟨rfl, rfl⟩ := h
      exact ⟨le_refl _, by simp, Or.inl h1⟩
    · simp only [Option.some.injEq, Prod.mk.injEq] at h
      obtain ⟨rfl, rfl⟩ := h
      exact ⟨by omega, by simp, Or.inr h2.1⟩
    · obtain ⟨h3, h4, h5⟩ := ih (i + 1) v n h
      exact ⟨by omega, h4, h5⟩

/-- A loop whose condition never holds from read `i` on and whose timeout is
zero is still running after any number of iterations. -/
theorem poll_loop_none (cond : Nat → Bool) (reads clock : Nat → Nat) (deadline : Nat)
    (fuel : Nat) :
    ∀ i : Nat, (∀ j, i ≤ j → cond (reads j) = false) →
      poll_loop cond reads clock 0 deadline fuel i = none := by
  induction fuel with
  | zero =>
    intro i _
    rfl
  | succ fuel ih =>
    intro i h
    unfold poll_loop
    rw [if_neg (by simp [h i (le_refl _)]), if_neg (by simp)]
    exact ih (i + 1) (fun j hj => h j (by omega))

/-- A loop whose condition holds at read `i + d` is left after at most `d + 1`
iterations. -/
theorem poll_loop_terminates (cond : Nat → Bool) (reads clock : Nat → Nat)
    (timeout_us deadline : Nat) (d : Nat) :
    ∀ i : Nat, cond (reads (i + d)) = true →
      (poll_loop cond reads clock timeout_us deadline (d + 1) i).isSome = true := by
  induction d with
  | zero =>
    intro i h
    unfold poll_loop
    rw [if_pos (by simpa using h)]
    rfl
  | succ d ih =>
    intro i h
    unfold poll_loop
    split_ifs
    · rfl
    · rfl
    · exact ih (i + 1) (by rw [show i + 1 + d = i + (d + 1) by omega]; exact h)

/-- The timeout branch: the condition fails on the reads `i` to `i + d`, the
deadline has not passed at the first `d` checks and has passed at the next
one; the loop then reads once more and stops with that value. -/
theorem poll_loop_timeout (cond : Nat → Bool) (reads clock : Nat → Nat)
    (timeout_us deadline : Nat) (hto : timeout_us ≠ 0) (d : Nat) :
    ∀ (i fuel : Nat), d < fuel →
      (∀ j, i ≤ j → j ≤ i + d → cond (reads j) = false) →
      (∀ j, i ≤ j → j < i + d → clock (j + 1) ≤ deadline) →
      deadline < clock (i + d + 1) →
      poll_loop cond reads clock timeout_us deadline fuel i =
        some (reads (i + d + 1), i + d + 2) := by
  induction d with
  | zero =>
    intro i fuel hf hc _ hd
    obtain ⟨fuel, rfl⟩ : ∃ m, fuel = m + 1 := ⟨fuel - 1, by omega⟩
    unfold poll_loop
    rw [if_neg (by simp [hc i (le_refl _) (by omega)]), if_pos ⟨hto, hd⟩]
  | succ d ih =>
    intro i fuel hf hc hk hd
    obtain ⟨fuel, rfl⟩ : ∃ m, fuel = m + 1 := ⟨fuel - 1, by omega⟩
    unfold poll_loop
    have hnot : ¬ (timeout_us ≠ 0 ∧ clock (i + 1) > deadline) := by
      intro hcon
      have := hk i (le_refl _) (by omega)
      omega
    rw [if_neg (by simp [hc i (le_refl _) (by omega)]), if_neg hnot]
    have := ih (i + 1) fuel (by omega) (fun j h1 h2 => hc j (by omega) (by omega))
      (fun j h1 h2 => hk j (by omega) (by omega))
      (by rw [show i + 1 + d + 1 = i + (d + 1) + 1 by omega]; exact hd)
    rw [this, show i + 1 + d + 1 = i + (d + 1) + 1 by omega,
      show i + 1 + d + 2 = i + (d + 1) + 2 by omega]

/-! ### Page-table walks -/

theorem hop_key_length (p : hl_mmu_properties) (va lvl : Nat) :
    (hop_key p va lvl).length = lvl := by
  simp [hop_key]

theorem hop_key_ne (p : hl_mmu_properties) (va a b : Nat) (hab : a ≠ b) :
    hop_key p va a ≠ hop_key p va b := by
  intro h
  have := congrArg List.length h
  rw [hop_key_length, hop_key_length] at this
  exact hab this

theorem write_pte_frame (h : List Nat → Option pgt_info) (key k : List Nat) (idx : Nat)
    (pte : hl_pte) (hk : k ≠ key) : write_pte h key idx pte k = h k := by
  unfold write_pte
  cases h key with
  | none => rfl
  | some node => exact Function.update_noteq hk _ _

theorem write_pte_same (h : List Nat → Option pgt_info) (key : List Nat) (idx : Nat)
    (pte : hl_pte) (node : pgt_info) (hnode : h key = some node) :
    ∃ node1, write_pte h key idx pte key = some node1 ∧ node1.ptes idx = pte ∧
      (∀ i, i ≠ idx → node1.ptes i = node.ptes i) ∧
      node1.num_of_ptes =
        if node.ptes idx = hl_pte.invalid then node.num_of_ptes + 1 else node.num_of_ptes := by
  unfold write_pte
  rw [hnode]
  refine ⟨_, Function.update_same _ _ _, Function.update_same _ _ _, ?_, rfl⟩
  intro i hi
  exact Function.update_noteq hi _ _

/-- After the descent step of `map_walk` the current hop points to the next
hop, the next hop is allocated, and no other key has changed. -/
theorem map_walk_step (p : hl_mmu_properties) (va lvl : Nat)
    (h : List Nat → Option pgt_info) (hroot : (h (hop_key p va lvl)).isSome = true) :
    ∃ node1,
      (if next_hop_present p va lvl h then h
        else write_pte (Function.update h (hop_key p va (lvl + 1)) (some empty_hop))
          (hop_key p va lvl) (get_pte_idx p lvl va) hl_pte.hop) (hop_key p va lvl) = some node1 ∧
      node1.ptes (get_pte_idx p lvl va) = hl_pte.hop ∧
      ((if next_hop_present p va lvl h then h
        else write_pte (Function.update h (hop_key p va (lvl + 1)) (some empty_hop))
          (hop_key p va lvl) (get_pte_idx p lvl va) hl_pte.hop)
        (hop_key p va (lvl + 1))).isSome = true := by
  have hne : hop_key p va lvl ≠ hop_key p va (lvl + 1) := hop_key_ne p va _ _ (by omega)
  obtain ⟨node, hnode⟩ := Option.isSome_iff_exists.mp hroot
  by_cases hpres : next_hop_present p va lvl h = true
  · rw [if_pos hpres]
    unfold next_hop_present at hpres
    rw [hnode] at hpres
    simp only [Bool.and_eq_true, decide_eq_true_eq] at hpres
    exact ⟨node, hnode, hpres.1, hpres.2⟩
  · rw [if_neg hpres]
    have h1 : Function.update h (hop_key p va (lvl + 1)) (some empty_hop) (hop_key p va lvl) =
        some node := by
      rw [Function.update_noteq hne]
      exact hnode
    obtain ⟨node1, hn1, hn2, -, -⟩ := write_pte_same _ _ (get_pte_idx p lvl va) hl_pte.hop node h1
    refine ⟨node1, hn1, hn2, ?_⟩
    rw [write_pte_frame _ _ _ _ _ (Ne.symm hne), Function.update_same]
    rfl

theorem map_walk_frame (p : hl_mmu_properties) (va pa : Nat) (remaining : Nat) :
    ∀ (lvl : Nat) (h : List Nat → Option pgt_info) (k : List Nat),
      (∀ j, lvl ≤ j → k ≠ hop_key p va j) → map_walk p va pa remaining lvl h k = h k := by
  induction remaining with
  | zero =>
    intro lvl h k hk
    exact write_pte_frame _ _ _ _ _ (hk lvl (le_refl _))
  | succ r ih =>
    intro lvl h k hk
    unfold map_walk
    split_ifs
    · exact ih (lvl + 1) h k (fun j hj => hk j (by omega))
    · rw [ih (lvl + 1) _ k (fun j hj => hk j (by omega)),
        write_pte_frame _ _ _ _ _ (hk lvl (le_refl _)),
        Function.update_noteq (hk (lvl + 1) (by omega))]

/-- A lookup that starts at an allocated hop of the walk that `map_walk` has
just completed finds the page that was mapped. -/
theorem map_walk_lookup (p : hl_mmu_properties) (va pa : Nat) (remaining : Nat) :
    ∀ (lvl : Nat) (h : List Nat → Option pgt_info) (fuel : Nat),
      (h (hop_key p va lvl)).isSome = true → remaining < fuel →
        lookup_walk p va (map_walk p va pa remaining lvl h) fuel lvl = some pa := by
  induction remaining with
  | zero =>
    intro lvl h fuel hroot hfuel
    obtain ⟨fuel, rfl⟩ : ∃ m, fuel = m + 1 := ⟨fuel - 1, by omega⟩
    obtain ⟨node, hnode⟩ := Option.isSome_iff_exists.mp hroot
    obtain ⟨node1, hn1, hn2, -, -⟩ :=
      write_pte_same h _ (get_pte_idx p lvl va) (hl_pte.page pa) node hnode
    simp only [map_walk, lookup_walk, hn1, hn2]
  | succ r ih =>
    intro lvl h fuel hroot hfuel
    obtain ⟨fuel, rfl⟩ : ∃ m, fuel = m + 1 := ⟨fuel - 1, by omega⟩
    obtain ⟨node1, hn1, hn2, hn3⟩ := map_walk_step p va lvl h hroot
    have hmw : map_walk p va pa (r + 1) lvl h =
        map_walk p va pa r (lvl + 1)
          (if next_hop_present p va lvl h then h
            else write_pte (Function.update h (hop_key p va (lvl + 1)) (some empty_hop))
              (hop_key p va lvl) (get_pte_idx p lvl va) hl_pte.hop) := by
      rw [map_walk]
      split_ifs <;> rfl
    rw [hmw]
    have hkeep := map_walk_frame p va pa r (lvl + 1)
      (if next_hop_present p va lvl h then h
        else write_pte (Function.update h (hop_key p va (lvl + 1)) (some empty_hop))
          (hop_key p va lvl) (get_pte_idx p lvl va) hl_pte.hop) (hop_key p va lvl)
      (fun j hj => hop_key_ne p va _ _ (by omega))
    rw [hn1] at hkeep
    rw [lookup_walk]
    simp only [hkeep, hn2]
    exact ih (lvl + 1) _ fuel hn3 (by omega)

theorem put_pte_frame (h : List Nat → Option pgt_info) (key k : List Nat) (idx lvl : Nat)
    (hk : k ≠ key) : (put_pte h key idx lvl).1 k = h k := by
  unfold put_pte
  cases h key with
  | none => rfl
  | some node =>
    simp only
    split_ifs <;> exact Function.update_noteq hk _ _

theorem put_pte_cleared (h : List Nat → Option pgt_info) (key : List Nat) (idx lvl : Nat)
    (node1 : pgt_info) (h1 : (put_pte h key idx lvl).1 key = some node1) :
    node1.ptes idx = hl_pte.invalid := by
  unfold put_pte at h1
  cases hk : h key with
  | none =>
    rw [hk] at h1
    simp only at h1
    rw [hk] at h1
    cases h1
  | some node =>
    rw [hk] at h1
    simp only at h1
    split_ifs at h1
    · dsimp only at h1
      rw [Function.update_same] at h1
      cases h1
    · dsimp only at h1
      rw [Function.update_same] at h1
      cases h1
      exact Function.update_same _ _ _

theorem lookup_walk_cleared (p : hl_mmu_properties) (va : Nat)
    (h : List Nat → Option pgt_info) (fuel lvl : Nat)
    (hclr : ∀ node, h (hop_key p va lvl) = some node →
      node.ptes (get_pte_idx p lvl va) = hl_pte.invalid) :
    lookup_walk p va h fuel lvl = none := by
  cases fuel with
  | zero => rfl
  | succ fuel =>
    unfold lookup_walk
    cases hk : h (hop_key p va lvl) with
    | none => rfl
    | some node => simp only [hclr node hk]

theorem unmap_walk_frame (p : hl_mmu_properties) (va : Nat) (fuel : Nat) :
    ∀ (lvl : Nat) (h h1 : List Nat → Option pgt_info) (b : Bool),
      unmap_walk p va fuel lvl h = some (h1, b) →
        ∀ k, (∀ j, lvl ≤ j → k ≠ hop_key p va j) → h1 k = h k := by
  induction fuel with
  | zero =>
    intro lvl h h1 b hrun
    simp [unmap_walk] at hrun
  | succ fuel ih =>
    intro lvl h h1 b hrun k hk
    unfold unmap_walk at hrun
    cases hnode : h (hop_key p va lvl) with
    | none => simp [hnode] at hrun
    | some node =>
      simp only [hnode] at hrun
      cases hpte : node.ptes (get_pte_idx p lvl va) with
      | invalid => simp [hpte] at hrun
      | page pa =>
        simp only [hpte, Option.some.injEq] at hrun
        have h1eq : h1 = (put_pte h (hop_key p va lvl) (get_pte_idx p lvl va) lvl).1 := by
          rw [hrun]
        rw [h1eq]
        exact put_pte_frame h _ k _ _ (hk lvl (le_refl _))
      | hop =>
        simp only [hpte] at hrun
        cases hrec : unmap_walk p va fuel (lvl + 1) h with
        | none => simp [hrec] at hrun
        | some r =>
          obtain ⟨h2, freed⟩ := r
          have hrec2 := ih (lvl + 1) h h2 freed hrec k (fun j hj => hk j (by omega))
          simp only [hrec] at hrun
          split_ifs at hrun
          · simp only [Option.some.injEq] at hrun
            have h1eq : h1 = (put_pte h2 (hop_key p va lvl) (get_pte_idx p lvl va) lvl).1 := by
              rw [hrun]
            rw [h1eq, put_pte_frame h2 _ k _ _ (hk lvl (le_refl _))]
            exact hrec2
          · simp only [Option.some.injEq, Prod.mk.injEq] at hrun
            rw [← hrun.1]
            exact hrec2

theorem unmap_walk_none (p : hl_mmu_properties) (va : Nat)
    (h : List Nat → Option pgt_info) (fuel : Nat) :
    ∀ lvl : Nat, unmap_walk p va fuel lvl h = none → lookup_walk p va h fuel lvl = none := by
  induction fuel with
  | zero =>
    intro lvl _
    rfl
  | succ fuel ih =>
    intro lvl hrun
    unfold unmap_walk at hrun
    unfold lookup_walk
    cases hnode : h (hop_key p va lvl) with
    | none => rfl
    | some node =>
      simp only [hnode] at hrun ⊢
      cases hpte : node.ptes (get_pte_idx p lvl va) with
      | invalid => rfl
      | page pa => simp [hpte] at hrun
      | hop =>
        simp only [hpte] at hrun ⊢
        cases hrec : unmap_walk p va fuel (lvl + 1) h with
        | none => exact ih (lvl + 1) hrec
        | some r =>
          obtain ⟨h2, freed⟩ := r
          simp only [hrec] at hrun
          split_ifs at hrun

theorem unmap_walk_some (p : hl_mmu_properties) (va : Nat) (fuel : Nat) :
    ∀ (lvl : Nat) (h h1 : List Nat → Option pgt_info) (b : Bool),
      unmap_walk p va fuel lvl h = some (h1, b) → lookup_walk p va h1 fuel lvl = none := by
  induction fuel with
  | zero =>
    intro lvl h h1 b hrun
    simp [unmap_walk] at hrun
  | succ fuel ih =>
    intro lvl h h1 b hrun
    have hframe := unmap_walk_frame p va (fuel + 1) lvl h h1 b hrun
    unfold unmap_walk at hrun
    cases hnode : h (hop_key p va lvl) with
    | none => simp [hnode] at hrun
    | some node =>
      simp only [hnode] at hrun
      cases hpte : node.ptes (get_pte_idx p lvl va) with
      | invalid => simp [hpte] at hrun
      | page pa =>
        simp only [hpte, Option.some.injEq] at hrun
        apply lookup_walk_cleared
        intro node1 hn1
        have h1eq : h1 = (put_pte h (hop_key p va lvl) (get_pte_idx p lvl va) lvl).1 := by
          rw [hrun]
        rw [h1eq] at hn1
        exact put_pte_cleared _ _ _ _ _ hn1
      | hop =>
        simp only [hpte] at hrun
        cases hrec : unmap_walk p va fuel (lvl + 1) h with
        | none => simp [hrec] at hrun
        | some r =>
          obtain ⟨h2, freed⟩ := r
          simp only [hrec] at hrun
          split_ifs at hrun
          · simp only [Option.some.injEq] at hrun
            apply lookup_walk_cleared
            intro node1 hn1
            have h1eq : h1 = (put_pte h2 (hop_key p va lvl) (get_pte_idx p lvl va) lvl).1 := by
              rw [hrun]
            rw [h1eq] at hn1
            exact put_pte_cleared _ _ _ _ _ hn1
          · simp only [Option.some.injEq, Prod.mk.injEq] at hrun
            obtain ⟨rfl, -⟩ := hrun
            have hkeep := unmap_walk_frame p va fuel (lvl + 1) h h2 freed hrec (hop_key p va lvl)
              (fun j hj => hop_key_ne p va _ _ (by omega))
            unfold lookup_walk
            simp only [hkeep, hnode, hpte]
            exact ih (lvl + 1) h h2 freed hrec

/-! ### Hops are freed at counter zero only -/

theorem put_pte_freed (h : List Nat → Option pgt_info) (key k : List Nat) (idx lvl : Nat)
    (node : pgt_info) (hnode : h k = some node)
    (hfree : (put_pte h key idx lvl).1 k = none) :
    k = key ∧ node.num_of_ptes - 1 = 0 ∧ lvl ≠ 0 := by
  by_cases hk : k = key
  · subst hk
    unfold put_pte at hfree
    rw [hnode] at hfree
    simp only at hfree
    split_ifs at hfree with hc
    · exact ⟨rfl, hc.1, hc.2⟩
    · dsimp only at hfree
      rw [Function.update_same] at hfree
      cases hfree
  · rw [put_pte_frame h key k idx lvl hk, hnode] at hfree
    cases hfree

theorem unmap_walk_freed (p : hl_mmu_properties) (va : Nat) (fuel : Nat) :
    ∀ (lvl : Nat) (h h1 : List Nat → Option pgt_info) (b : Bool),
      unmap_walk p va fuel lvl h = some (h1, b) →
        ∀ (k : List Nat) (node : pgt_info), h k = some node → h1 k = none →
          node.num_of_ptes - 1 = 0 ∧ k ≠ [] := by
  induction fuel with
  | zero =>
    intro lvl h h1 b hrun
    simp [unmap_walk] at hrun
  | succ fuel ih =>
    intro lvl h h1 b hrun k node hk hfree
    have hkey : ∀ kk : List Nat, kk = hop_key p va lvl → lvl ≠ 0 → kk ≠ [] := by
      intro kk hkk hl hnil
      have := hop_key_length p va lvl
      rw [← hkk, hnil] at this
      exact hl this.symm
    unfold unmap_walk at hrun
    cases hnode : h (hop_key p va lvl) with
    | none => simp [hnode] at hrun
    | some node0 =>
      simp only [hnode] at hrun
      cases hpte : node0.ptes (get_pte_idx p lvl va) with
      | invalid => simp [hpte] at hrun
      | page pa =>
        simp only [hpte, Option.some.injEq] at hrun
        have h1eq : h1 = (put_pte h (hop_key p va lvl) (get_pte_idx p lvl va) lvl).1 := by
          rw [hrun]
        rw [h1eq] at hfree
        obtain ⟨h1k, h2k, h3k⟩ := put_pte_freed h _ k _ _ node hk hfree
        exact ⟨h2k, hkey k h1k h3k⟩
      | hop =>
        simp only [hpte] at hrun
        cases hrec : unmap_walk p va fuel (lvl + 1) h with
        | none => simp [hrec] at hrun
        | some r =>
          obtain ⟨h2, freed⟩ := r
          simp only [hrec] at hrun
          split_ifs at hrun
          · simp only [Option.some.injEq] at hrun
            have h1eq : h1 = (put_pte h2 (hop_key p va lvl) (get_pte_idx p lvl va) lvl).1 := by
              rw [hrun]
            rw [h1eq] at hfree
            cases h2k : h2 k with
            | none => exact ih (lvl + 1) h h2 freed hrec k node hk h2k
            | some node2 =>
              obtain ⟨e1, e2, e3⟩ := put_pte_freed h2 _ k _ _ node2 h2k hfree
              have hkeep := unmap_walk_frame p va fuel (lvl + 1) h h2 freed hrec k
                (fun j hj => by rw [e1]; exact hop_key_ne p va _ _ (by omega))
              rw [h2k, hk] at hkeep
              cases hkeep
              exact ⟨e2, hkey k e1 e3⟩
          · simp only [Option.some.injEq, Prod.mk.injEq] at hrun
            obtain ⟨rfl, -⟩ := hrun
            exact ih (lvl + 1) h h2 freed hrec k node hk hfree

theorem write_pte_present (h : List Nat → Option pgt_info) (key k : List Nat) (idx : Nat)
    (pte : hl_pte) (hk : h k ≠ none) : write_pte h key idx pte k ≠ none := by
  by_cases hkk : k = key
  · subst hkk
    obtain ⟨node, hnode⟩ := Option.ne_none_iff_exists.mp hk
    obtain ⟨node1, hn1, -⟩ := write_pte_same h k idx pte node hnode.symm
    rw [hn1]
    simp
  · rw [write_pte_frame h key k idx pte hkk]
    exact hk

theorem map_walk_present (p : hl_mmu_properties) (va pa : Nat) (remaining : Nat) :
    ∀ (lvl : Nat) (h : List Nat → Option pgt_info) (k : List Nat),
      h k ≠ none → map_walk p va pa remaining lvl h k ≠ none := by
  induction remaining with
  | zero =>
    intro lvl h k hk
    exact write_pte_present h _ k _ _ hk
  | succ r ih =>
    intro lvl h k hk
    unfold map_walk
    split_ifs
    · exact ih (lvl + 1) h k hk
    · apply ih
      apply write_pte_present
      by_cases hc : k = hop_key p va (lvl + 1)
      · rw [hc, Function.update_same]
        simp
      · rw [Function.update_noteq hc]
        exact hk

/-! ### The counter invariant is kept by map and unmap -/

theorem pgt_inv_init : pgt_inv hl_mmu_ctx_init.mmu_shadow_hash (fun _ => False) := by
  intro key node hnode
  simp only [hl_mmu_ctx_init] at hnode
  split_ifs at hnode with hk
  cases hnode
  exact ⟨∅, by simp [empty_hop], by simp [empty_hop], fun hne => absurd hk hne⟩

theorem pgt_inv_mono (h : List Nat → Option pgt_info) (sp sp1 : List Nat → Prop)
    (hinv : pgt_inv h sp) (hsub : ∀ k, sp k → sp1 k) : pgt_inv h sp1 := by
  intro key node hnode
  obtain ⟨S, hS1, hS2, hS3⟩ := hinv key node hnode
  exact ⟨S, hS1, hS2, fun hne hsp => hS3 hne (fun hc => hsp (hsub key hc))⟩

theorem pgt_inv_live (h : List Nat → Option pgt_info) (sp sp1 : List Nat → Prop)
    (key : List Nat) (node : pgt_info) (idx : Nat) (hinv : pgt_inv h sp)
    (hnode : h key = some node) (hlive : node.ptes idx ≠ hl_pte.invalid)
    (hsp : ∀ k, sp k → k = key ∨ sp1 k) : pgt_inv h sp1 := by
  intro k node1 hk
  obtain ⟨S, hS1, hS2, hS3⟩ := hinv k node1 hk
  refine ⟨S, hS1, hS2, fun hne hsp1 => ?_⟩
  by_cases hkk : k = key
  · subst hkk
    rw [hnode] at hk
    cases hk
    exact ⟨idx, (hS1 idx).mp hlive⟩
  · apply hS3 hne
    intro hc
    rcases hsp k hc with h1 | h1
    · exact hkk h1
    · exact hsp1 h1

theorem alloc_inv (h : List Nat → Option pgt_info) (sp sp1 : List Nat → Prop)
    (child : List Nat) (hinv : pgt_inv h sp) (hc : sp1 child) (hsub : ∀ k, sp k → sp1 k) :
    pgt_inv (Function.update h child (some empty_hop)) sp1 := by
  intro k node hk
  by_cases hkc : k = child
  · subst hkc
    rw [Function.update_same] at hk
    cases hk
    exact ⟨∅, by simp [empty_hop], by simp [empty_hop], fun _ hsp => absurd hc hsp⟩
  · rw [Function.update_noteq hkc] at hk
    exact pgt_inv_mono h sp sp1 hinv hsub k node hk

theorem write_pte_inv (h : List Nat → Option pgt_info) (sp sp1 : List Nat → Prop)
    (key : List Nat) (idx : Nat) (pte : hl_pte) (hinv : pgt_inv h sp)
    (hpte : pte ≠ hl_pte.invalid) (hsp : ∀ k, sp k → k = key ∨ sp1 k) :
    pgt_inv (write_pte h key idx pte) sp1 := by
  intro k node1 hk
  by_cases hkk : k = key
  · subst hkk
    cases hnode : h k with
    | none =>
      have : write_pte h k idx pte = h := by
        unfold write_pte
        rw [hnode]
      rw [this, hnode] at hk
      cases hk
    | some node =>
      obtain ⟨node2, hn1, hn2, hn3, hn4⟩ := write_pte_same h k idx pte node hnode
      rw [hn1] at hk
      cases hk
      obtain ⟨S, hS1, hS2, -⟩ := hinv k node hnode
      refine ⟨insert idx S, ?_, ?_, fun _ _ => ⟨idx, Finset.mem_insert_self idx S⟩⟩
      · intro i
        by_cases hi : i = idx
        · subst hi
          simp [hn2, hpte]
        · rw [hn3 i hi, hS1 i]
          simp [hi]
      · rw [hn4]
        by_cases hold : node.ptes idx = hl_pte.invalid
        · have hnot : idx ∉ S := fun hmem => ((hS1 idx).mpr hmem) hold
          rw [if_pos hold, Finset.card_insert_of_not_mem hnot, hS2]
          push_cast
          rfl
        · have hmem : idx ∈ S := (hS1 idx).mp hold
          rw [if_neg hold, Finset.insert_eq_of_mem hmem, hS2]
  · rw [write_pte_frame h key k idx pte hkk] at hk
    obtain ⟨S, hS1, hS2, hS3⟩ := hinv k node1 hk
    refine ⟨S, hS1, hS2, fun hne hsp1 => hS3 hne (fun hc => ?_)⟩
    rcases hsp k hc with h1 | h1
    · exact hkk h1
    · exact hsp1 h1

theorem map_walk_inv (p : hl_mmu_properties) (va pa : Nat) (remaining : Nat) :
    ∀ (lvl : Nat) (h : List Nat → Option pgt_info),
      pgt_inv h (fun k => k = hop_key p va lvl) →
        pgt_inv (map_walk p va pa remaining lvl h) (fun _ => False) := by
  induction remaining with
  | zero =>
    intro lvl h hinv
    exact write_pte_inv h _ _ _ _ _ hinv (by simp) (fun k hk => Or.inl hk)
  | succ r ih =>
    intro lvl h hinv
    unfold map_walk
    split_ifs with hpres
    · apply ih
      unfold next_hop_present at hpres
      cases hnode : h (hop_key p va lvl) with
      | none => simp [hnode] at hpres
      | some node =>
        rw [hnode] at hpres
        simp only [Bool.and_eq_true, decide_eq_true_eq] at hpres
        exact pgt_inv_live h _ _ (hop_key p va lvl) node (get_pte_idx p lvl va) hinv hnode
          (by rw [hpres.1]; simp) (fun k hk => Or.inl hk)
    · apply ih
      apply write_pte_inv _ (fun k => k = hop_key p va lvl ∨ k = hop_key p va (lvl + 1)) _ _ _ _
        ?_ (by simp) (fun k hk => hk)
      exact alloc_inv h _ _ _ hinv (Or.inr rfl) (fun k hk => Or.inl hk)

theorem hl_mmu_map_inv (p : hl_mmu_properties) (last_hop : Nat → Nat) (ctx : hl_mmu_ctx)
    (va pa page_size : Nat) (hinv : pgt_inv ctx.mmu_shadow_hash (fun _ => False)) :
    pgt_inv (hl_mmu_map p last_hop ctx va pa page_size).mmu_shadow_hash (fun _ => False) := by
  unfold hl_mmu_map
  apply map_walk_inv
  have hk : hop_key p va 0 = [] := rfl
  cases hr : ctx.mmu_shadow_hash [] with
  | none =>
    simp only
    exact alloc_inv _ _ _ [] hinv (by rw [hk]) (fun k hf => absurd hf id)
  | some node =>
    simp only
    exact pgt_inv_mono _ _ _ hinv (fun k hf => absurd hf id)

theorem put_pte_inv (h : List Nat → Option pgt_info) (key : List Nat) (idx lvl : Nat)
    (hinv : pgt_inv h (fun _ => False))
    (hlive : ∀ node, h key = some node → node.ptes idx ≠ hl_pte.invalid)
    (hroot : key ≠ [] → lvl ≠ 0) :
    pgt_inv (put_pte h key idx lvl).1 (fun _ => False) := by
  unfold put_pte
  cases hnode : h key with
  | none => exact hinv
  | some node =>
    simp only
    obtain ⟨S, hS1, hS2, -⟩ := hinv key node hnode
    have hmem : idx ∈ S := (hS1 idx).mp (hlive node hnode)
    split_ifs with hc
    · intro k node1 hk
      dsimp only at hk
      by_cases hkk : k = key
      · subst hkk
        rw [Function.update_same] at hk
        cases hk
      · rw [Function.update_noteq hkk] at hk
        exact hinv k node1 hk
    · intro k node1 hk
      dsimp only at hk
      by_cases hkk : k = key
      · subst hkk
        rw [Function.update_same] at hk
        cases hk
        have hcard : ((S.erase idx).card : Int) = (S.card : Int) - 1 := by
          have h1 := Finset.card_erase_of_mem hmem
          have h2 : 1 ≤ S.card := Finset.card_pos.mpr ⟨idx, hmem⟩
          omega
        refine ⟨S.erase idx, ?_, ?_, ?_⟩
        · intro i
          by_cases hi : i = idx
          · subst hi
            simp
          · simp only [ne_eq, Function.update_noteq hi, Finset.mem_erase, hi, not_false_eq_true,
              true_and]
            exact hS1 i
        · simp only
          rw [hcard, hS2]
        · intro hne _
          have hl := hroot hne
          have hnz : node.num_of_ptes - 1 ≠ 0 := fun hz => hc ⟨hz, hl⟩
          rw [hS2, ← hcard] at hnz
          apply Finset.card_pos.mp
          omega
      · rw [Function.update_noteq hkk] at hk
        exact hinv k node1 hk

theorem unmap_walk_inv (p : hl_mmu_properties) (va : Nat) (fuel : Nat) :
    ∀ (lvl : Nat) (h h1 : List Nat → Option pgt_info) (b : Bool),
      pgt_inv h (fun _ => False) → unmap_walk p va fuel lvl h = some (h1, b) →
        pgt_inv h1 (fun _ => False) := by
  induction fuel with
  | zero =>
    intro lvl h h1 b _ hrun
    simp [unmap_walk] at hrun
  | succ fuel ih =>
    intro lvl h h1 b hinv hrun
    have hroot : hop_key p va lvl ≠ [] → lvl ≠ 0 := by
      intro hne hl
      subst hl
      exact hne rfl
    unfold unmap_walk at hrun
    cases hnode : h (hop_key p va lvl) with
    | none => simp [hnode] at hrun
    | some node =>
      simp only [hnode] at hrun
      cases hpte : node.ptes (get_pte_idx p lvl va) with
      | invalid => simp [hpte] at hrun
      | page pa =>
        simp only [hpte, Option.some.injEq] at hrun
        have h1eq : h1 = (put_pte h (hop_key p va lvl) (get_pte_idx p lvl va) lvl).1 := by
          rw [hrun]
        rw [h1eq]
        apply put_pte_inv h _ _ _ hinv _ hroot
        intro node1 hn1
        rw [hnode] at hn1
        cases hn1
        rw [hpte]
        simp
      | hop =>
        simp only [hpte] at hrun
        cases hrec : unmap_walk p va fuel (lvl + 1) h with
        | none => simp [hrec] at hrun
        | some r =>
          obtain ⟨h2, freed⟩ := r
          have hinv2 := ih (lvl + 1) h h2 freed hinv hrec
          simp only [hrec] at hrun
          split_ifs at hrun
          · simp only [Option.some.injEq] at hrun
            have h1eq : h1 = (put_pte h2 (hop_key p va lvl) (get_pte_idx p lvl va) lvl).1 := by
              rw [hrun]
            rw [h1eq]
            apply put_pte_inv h2 _ _ _ hinv2 _ hroot
            intro node1 hn1
            have hkeep := unmap_walk_frame p va fuel (lvl + 1) h h2 freed hrec (hop_key p va lvl)
              (fun j hj => hop_key_ne p va _ _ (by omega))
            rw [hn1, hnode] at hkeep
            cases hkeep
            rw [hpte]
            simp
          · simp only [Option.some.injEq, Prod.mk.injEq] at hrun
            obtain ⟨rfl, -⟩ := hrun
            exact hinv2

theorem mmu_run_inv (p : hl_mmu_properties) (last_hop : Nat → Nat) (ops : List mmu_op) :
    ∀ ctx : hl_mmu_ctx, pgt_inv ctx.mmu_shadow_hash (fun _ => False) →
      pgt_inv (mmu_run p last_hop ctx ops).mmu_shadow_hash (fun _ => False) := by
  induction ops with
  | nil =>
    intro ctx hinv
    exact hinv
  | cons op ops ih =>
    intro ctx hinv
    cases op with
    | map va pa page_size =>
      exact ih _ (hl_mmu_map_inv p last_hop ctx va pa page_size hinv)
    | unmap va page_size =>
      apply ih
      unfold hl_mmu_unmap
      cases hrun : unmap_walk p va 5 0 ctx.mmu_shadow_hash with
      | none => exact hinv
      | some r =>
        obtain ⟨h1, b⟩ := r
        exact unmap_walk_inv p va 5 0 ctx.mmu_shadow_hash h1 b hinv hrun

/-! ### Rollback -/

theorem cs_rollback_not_pending (cs : hl_cs) : cs_pending_rollback (cs_rollback cs) = false := by
  unfold cs_rollback
  by_cases h : cs_pending_rollback cs = true
  · rw [if_pos h]
    simp [cs_pending_rollback]
  · rw [if_neg h]
    simpa using h

theorem cs_rollback_idem (cs : hl_cs) : cs_rollback (cs_rollback cs) = cs_rollback cs := by
  have h := cs_rollback_not_pending cs
  generalize cs_rollback cs = c at h ⊢
  unfold cs_rollback
  rw [h]
  simp

/-! ## Claims C1 to C7: range checks and ring constants -/

/-- Claim C1. For every 64-bit `address`, 32-bit `size` and 64-bit range
bounds, `hl_mem_area_inside_range` returns true if and only if `size >= 1`,
the mathematical sum `address + size` is below `2 ^ 64`, the area starts at or
after `range_start_address` and `address + size <= range_end_address`; in
every other case, a zero-size area and an area whose end wraps included, it
returns false. -/
theorem hl_mem_area_inside_range_iff
    (address size range_start_address range_end_address : Nat)
    (ha : address < 2 ^ 64) (hs : size < 2 ^ 32)
    (hrs : range_start_address < 2 ^ 64) (hre : range_end_address < 2 ^ 64) :
    (hl_mem_area_inside_range address size range_start_address range_end_address = true ↔
      (1 ≤ size ∧ address + size < 2 ^ 64 ∧ range_start_address ≤ address ∧
        address + size ≤ range_end_address)) ∧
    (¬ (1 ≤ size ∧ address + size < 2 ^ 64 ∧ range_start_address ≤ address ∧
        address + size ≤ range_end_address) →
      hl_mem_area_inside_range address size range_start_address range_end_address = false) ∧
    (size = 0 →
      hl_mem_area_inside_range address size range_start_address range_end_address = false) ∧
    (2 ^ 64 ≤ address + size →
      hl_mem_area_inside_range address size range_start_address range_end_address = false) := by
  have key : hl_mem_area_inside_range address size range_start_address range_end_address = true ↔
      (1 ≤ size ∧ address + size < 2 ^ 64 ∧ range_start_address ≤ address ∧
        address + size ≤ range_end_address) := by
    unfold hl_mem_area_inside_range
    simp only [Bool.and_eq_true, decide_eq_true_eq, ite_eq_left_iff, Bool.not_eq_true]
    norm_num at ha hs hrs hre ⊢
    omega
  refine ⟨key, ?_, ?_, ?_⟩
  · intro h
    rw [← Bool.not_eq_true, key]
    exact h
  · intro h
    rw [← Bool.not_eq_true, key]
    omega
  · intro h
    rw [← Bool.not_eq_true, key]
    omega

/-- Witness for C1: the area `[16, 24)` inside the range `[16, 32)`. -/
theorem hl_mem_area_inside_range_iff_witness :
    hl_mem_area_inside_range 16 8 16 32 = true ∧
      (1 ≤ 8 ∧ 16 + 8 < 2 ^ 64 ∧ 16 ≤ 16 ∧ 16 + 8 ≤ 32) :=
  ⟨by decide,
    ((hl_mem_area_inside_range_iff 16 8 16 32 (by norm_num) (by norm_num) (by norm_num)
      (by norm_num)).1).mp (by decide)⟩

/-- Claim C2. For every input where `address + size` does not exceed
`2 ^ 64 - 1`, if the area `[address, address + size)` shares at least one
address with the range `[range_start_address, range_end_address)`, then
`hl_mem_area_crosses_range` returns true. -/
theorem hl_mem_area_crosses_range_of_overlap
    (address size range_start_address range_end_address : Nat)
    (_ha : address < 2 ^ 64) (_hs : size < 2 ^ 32)
    (_hrs : range_start_address < 2 ^ 64) (_hre : range_end_address < 2 ^ 64)
    (hnowrap : address + size ≤ 2 ^ 64 - 1)
    (hshare : ∃ x, address ≤ x ∧ x < address + size ∧
      range_start_address ≤ x ∧ x < range_end_address) :
    hl_mem_area_crosses_range address size range_start_address range_end_address = true := by
  obtain ⟨x, hx1, hx2, hx3, hx4⟩ := hshare
  unfold hl_mem_area_crosses_range
  have hend : (address + size) % 2 ^ 64 = address + size := by
    apply Nat.mod_eq_of_lt
    norm_num at hnowrap ⊢
    omega
  simp only [hend, Bool.and_eq_true, decide_eq_true_eq]
  split_ifs <;> first | rfl | omega

/-- Witness for C2: the area `[0, 8)` overlaps the range `[4, 16)` at address 4. -/
theorem hl_mem_area_crosses_range_of_overlap_witness :
    hl_mem_area_crosses_range 0 8 4 16 = true :=
  hl_mem_area_crosses_range_of_overlap 0 8 4 16 (by norm_num) (by norm_num) (by norm_num)
    (by norm_num) (by norm_num) ⟨4, by norm_num, by norm_num, by norm_num, by norm_num⟩

/-- Claim C3, evaluated at its failing inputs. The area `[0, 4)` ends exactly
at the start of the range `[4, 8)` and shares no address with it, yet
`hl_mem_area_crosses_range` returns true; likewise for the zero-size area at
address 5 against `[0, 10)`, which contains no address at all, and for the
area `[0, 10)` against the empty range with start 5 and end 5. -/
theorem hl_mem_area_crosses_range_disjoint_true :
    (hl_mem_area_crosses_range 0 4 4 8 = true ∧
      ¬ ∃ x, 0 ≤ x ∧ x < 0 + 4 ∧ 4 ≤ x ∧ x < 8) ∧
    (hl_mem_area_crosses_range 5 0 0 10 = true ∧
      ¬ ∃ x, 5 ≤ x ∧ x < 5 + 0 ∧ 0 ≤ x ∧ x < 10) ∧
    (hl_mem_area_crosses_range 0 10 5 5 = true ∧
      ¬ ∃ x, 0 ≤ x ∧ x < 0 + 10 ∧ 5 ≤ x ∧ x < 5) := by
  refine ⟨⟨by decide, ?_⟩, ⟨by decide, ?_⟩, ⟨by decide, ?_⟩⟩ <;>
    · rintro ⟨x, h1, h2, h3, h4⟩
      omega

/-- Claim C4, evaluated at its failing input. The area that starts at
`2 ^ 64 - 16` with size 32 wraps (`address + size >= 2 ^ 64`), the address
`2 ^ 64 - 8` lies both in `[address, 2 ^ 64)` and in the range
`[2 ^ 64 - 8, 2 ^ 64 - 4)`, yet `hl_mem_area_crosses_range` returns false. -/
theorem hl_mem_area_crosses_range_wrap_false :
    2 ^ 64 ≤ (2 ^ 64 - 16) + 32 ∧
    (∃ x, 2 ^ 64 - 16 ≤ x ∧ x < 2 ^ 64 ∧ 2 ^ 64 - 8 ≤ x ∧ x < 2 ^ 64 - 4) ∧
    hl_mem_area_crosses_range (2 ^ 64 - 16) 32 (2 ^ 64 - 8) (2 ^ 64 - 4) = false := by
  refine ⟨by norm_num, ⟨2 ^ 64 - 8, by norm_num, by norm_num, by norm_num, by norm_num⟩, ?_⟩
  decide

/-- Claim C5. For every 32-bit unsigned `n`, `IS_MAX_PENDING_CS_VALID(n)` holds
if and only if `n = 2 ^ k` for some `1 <= k <= 31`; in particular 0, 1 and every
non-power-of-two are rejected. -/
theorem IS_MAX_PENDING_CS_VALID_iff (n : Nat) (hn : n < 2 ^ 32) :
    (IS_MAX_PENDING_CS_VALID n = true ↔ ∃ k, 1 ≤ k ∧ k ≤ 31 ∧ n = 2 ^ k) ∧
    IS_MAX_PENDING_CS_VALID 0 = false ∧
    IS_MAX_PENDING_CS_VALID 1 = false ∧
    ((¬ ∃ k, n = 2 ^ k) → IS_MAX_PENDING_CS_VALID n = false) := by
  have key : IS_MAX_PENDING_CS_VALID n = true ↔ ∃ k, 1 ≤ k ∧ k ≤ 31 ∧ n = 2 ^ k := by
    unfold IS_MAX_PENDING_CS_VALID
    rw [Bool.and_eq_true, IS_POWER_OF_2_iff n hn, decide_eq_true_eq]
    constructor
    · rintro ⟨⟨k, hk⟩, h1⟩
      refine ⟨k, ?_, ?_, hk⟩
      · rcases Nat.eq_zero_or_pos k with h0 | h0
        · subst h0
          simp at hk
          omega
        · exact h0
      · by_contra hlt
        have h32 : 32 ≤ k := by omega
        have : 2 ^ 32 ≤ 2 ^ k := Nat.pow_le_pow_right (by norm_num) h32
        omega
    · rintro ⟨k, hk1, -, hk⟩
      refine ⟨⟨k, hk⟩, ?_⟩
      have : 2 ^ 1 ≤ 2 ^ k := Nat.pow_le_pow_right (by norm_num) hk1
      omega
  refine ⟨key, by decide, by decide, ?_⟩
  intro hno
  rw [← Bool.not_eq_true, key]
  rintro ⟨k, -, -, hk⟩
  exact hno ⟨k, hk⟩

/-- Witness for C5: 8 is accepted as a maximum number of pending submissions. -/
theorem IS_MAX_PENDING_CS_VALID_iff_witness :
    IS_MAX_PENDING_CS_VALID 8 = true ∧ ∃ k, 1 ≤ k ∧ k ≤ 31 ∧ 8 = 2 ^ k :=
  ⟨by decide, ((IS_MAX_PENDING_CS_VALID_iff 8 (by norm_num)).1).mp (by decide)⟩

/-- Claim C6. For every producer index `pi`, `hl_pi_2_offset(pi)` equals
`pi mod HL_QUEUE_LENGTH`, that is `pi mod 4096`, and the result is a valid ring
slot index in the range `0..4095`. -/
theorem hl_pi_2_offset_eq_mod (pi : Nat) :
    hl_pi_2_offset pi = pi % HL_QUEUE_LENGTH ∧
    hl_pi_2_offset pi = pi % 4096 ∧
    hl_pi_2_offset pi ≤ 4095 := by
  have h : hl_pi_2_offset pi = pi % 4096 := by
    unfold hl_pi_2_offset HL_QUEUE_LENGTH
    exact Nat.and_pow_two_sub_one_eq_mod pi 12
  refine ⟨h, h, ?_⟩
  rw [h]
  omega

/-- Claim C7. Every ring capacity defined by the header is a power of two:
`IS_POWER_OF_2` holds for `HL_QUEUE_LENGTH`, `HL_CQ_LENGTH` and `HL_EQ_LENGTH`. -/
theorem ring_lengths_power_of_2 :
    IS_POWER_OF_2 HL_QUEUE_LENGTH = true ∧
    IS_POWER_OF_2 HL_CQ_LENGTH = true ∧
    IS_POWER_OF_2 HL_EQ_LENGTH = true ∧
    HL_QUEUE_LENGTH = 2 ^ 12 ∧ HL_CQ_LENGTH = 2 ^ 12 ∧ HL_EQ_LENGTH = 2 ^ 6 := by
  refine ⟨by decide, by decide, by decide, by decide, by decide, by decide⟩

/-! ## Claims C8 to C10: sequence numbers and the hardware queue ring -/

/-- Claim C8. For all sequences of submissions to one context, the sequence
numbers handed out from `cs_sequence` are strictly increasing, so none repeats,
and a number that is handed out next is never one whose fence is stored
outstanding in `cs_pending`. The context may start in any state whose pending
table only holds fences of numbers already handed out. -/
theorem cs_sequence_strictly_increasing (max_pending_cs : Nat) (ctx : hl_ctx)
    (ops : List ctx_op) (hwf : ∀ f ∈ ctx.cs_pending, f.cs_seq < ctx.cs_sequence) :
    List.Pairwise (fun a b => a < b) (ctx_run max_pending_cs ctx ops).2 ∧
    (ctx_run max_pending_cs ctx ops).2.Nodup ∧
    (∀ job_count seq ctx1,
      submit max_pending_cs (ctx_run max_pending_cs ctx ops).1 job_count = (some seq, ctx1) →
        fence_outstanding (ctx_run max_pending_cs ctx ops).1 seq = false ∧
        (∀ s ∈ (ctx_run max_pending_cs ctx ops).2, s < seq) ∧
        ctx1.cs_pending.head? = some { cs_seq := seq, signaled := false }) := by
  obtain ⟨h1, h2, -, h4⟩ := ctx_run_invariant max_pending_cs ops ctx hwf
  refine ⟨h1, ?_, ?_⟩
  · exact h1.imp (fun h => Nat.ne_of_lt h)
  · intro job_count seq ctx1 hsub
    unfold submit at hsub
    split_ifs at hsub with hrej
    · simp at hsub
    · simp only [Prod.mk.injEq, Option.some.injEq] at hsub
      obtain ⟨hseq, hctx⟩ := hsub
      refine ⟨?_, ?_, ?_⟩
      · rw [← Bool.not_eq_true]
        intro hout
        simp only [fence_outstanding, List.any_eq_true, Bool.and_eq_true,
          decide_eq_true_eq] at hout
        obtain ⟨f, hf, hfs, -⟩ := hout
        have := h4 f hf
        omega
      · intro s hs
        have := (h2 s hs).2
        omega
      · rw [← hctx, ← hseq]
        rfl

/-- Witness for C8: two accepted submissions, a completion and a rejected
submission on a fresh context. -/
theorem cs_sequence_strictly_increasing_witness :
    (ctx_run 4 { cs_pending := [], cs_sequence := 0 }
      [ctx_op.submit 1, ctx_op.signal 0, ctx_op.submit 9, ctx_op.submit 2]).2 = [0, 1] ∧
    List.Pairwise (fun a b => a < b) (ctx_run 4 { cs_pending := [], cs_sequence := 0 }
      [ctx_op.submit 1, ctx_op.signal 0, ctx_op.submit 9, ctx_op.submit 2]).2 :=
  ⟨by decide,
    (cs_sequence_strictly_increasing 4 { cs_pending := [], cs_sequence := 0 }
      [ctx_op.submit 1, ctx_op.signal 0, ctx_op.submit 9, ctx_op.submit 2]
      (by simp)).1⟩

/-- Claim C9. For all interleavings of enqueue and retire on one hardware
queue, started on a reset queue, the shadow job retired at slot `s` is the job
most recently enqueued at slot `s`; it is still unretired there, so no job is
retired twice, and every enqueue goes to a slot that holds no unretired job, so
no two distinct jobs occupy the same unretired slot. -/
theorem shadow_queue_retire_most_recent (ops : List queue_op) (log : List queue_event)
    (hrun : queue_log ops = some log) :
    (∀ pre s job post, log = pre ++ queue_event.ret s job :: post →
      job ≠ none ∧ job = last_enqueued s pre ∧ job = unretired s pre) ∧
    (∀ pre s job post, log = pre ++ queue_event.enq s job :: post →
      unretired s pre = none) := by
  unfold queue_log at hrun
  cases hr : queue_run hl_hw_queue_reset ops with
  | none => simp [hr] at hrun
  | some r =>
  simp only [hr, Option.map_some', Option.some.injEq] at hrun
  subst hrun
  have hok := queue_run_ok ops 0 0 hl_hw_queue_reset [] r ring_inv_reset hr
  constructor
  · intro pre s job post hsplit
    have := events_ok_split r.2 [] hok pre (queue_event.ret s job) post hsplit
    simpa [event_ok] using this
  · intro pre s job post hsplit
    have := events_ok_split r.2 [] hok pre (queue_event.enq s job) post hsplit
    simpa [event_ok] using this

/-- Witness for C9: two jobs are enqueued, the first is retired, a third job
is enqueued and the second is retired. -/
theorem shadow_queue_retire_most_recent_witness :
    queue_log [queue_op.enqueue 100 7, queue_op.enqueue 101 8, queue_op.advance_consumer 1,
        queue_op.enqueue 102 9, queue_op.advance_consumer 2] =
      some [queue_event.enq 0 7, queue_event.enq 1 8, queue_event.ret 0 (some 7),
        queue_event.enq 2 9, queue_event.ret 1 (some 8)] ∧
    (some 8 ≠ none ∧
      some 8 = last_enqueued 1 [queue_event.enq 0 7, queue_event.enq 1 8,
        queue_event.ret 0 (some 7), queue_event.enq 2 9] ∧
      some 8 = unretired 1 [queue_event.enq 0 7, queue_event.enq 1 8,
        queue_event.ret 0 (some 7), queue_event.enq 2 9]) :=
  ⟨by decide,
    (shadow_queue_retire_most_recent
      [queue_op.enqueue 100 7, queue_op.enqueue 101 8, queue_op.advance_consumer 1,
        queue_op.enqueue 102 9, queue_op.advance_consumer 2]
      [queue_event.enq 0 7, queue_event.enq 1 8, queue_event.ret 0 (some 7),
        queue_event.enq 2 9, queue_event.ret 1 (some 8)]
      (by decide)).1
      [queue_event.enq 0 7, queue_event.enq 1 8, queue_event.ret 0 (some 7),
        queue_event.enq 2 9] 1 (some 8) [] rfl⟩

/-- Claim C10. Scheduling a job onto a hardware queue whose ring is full of
unretired jobs fails with the queue-full error and returns the queue as it
was: the ring of descriptors, the shadow queue, the producer index and the
consumer index are unchanged. Whatever the fill level, an enqueue never
overwrites the descriptor or the shadow entry of a live slot. -/
theorem enqueue_full_keeps_queue (q : hl_hw_queue) (desc job : Nat) :
    (HL_QUEUE_LENGTH ≤ in_flight q →
      (enqueue q desc job).1 = Except.error hl_error.QueueFull ∧
      (enqueue q desc job).2 = q ∧
      (enqueue q desc job).2.pi = q.pi ∧
      (∀ s, (enqueue q desc job).2.ring s = q.ring s ∧
        (enqueue q desc job).2.shadow_queue s = q.shadow_queue s)) ∧
    (∀ s, live_slot q s →
      (enqueue q desc job).2.ring s = q.ring s ∧
      (enqueue q desc job).2.shadow_queue s = q.shadow_queue s) := by
  constructor
  · intro hfull
    have h : enqueue q desc job = (Except.error hl_error.QueueFull, q) := by
      simp [enqueue, hfull]
    rw [h]
    exact ⟨rfl, rfl, rfl, fun s => ⟨rfl, rfl⟩⟩
  · rintro s ⟨k, hk, rfl⟩
    by_cases hfull : HL_QUEUE_LENGTH ≤ in_flight q
    · have h : enqueue q desc job = (Except.error hl_error.QueueFull, q) := by
        simp [enqueue, hfull]
      rw [h]
      exact ⟨rfl, rfl⟩
    · have hne : hl_pi_2_offset ((q.ci + k) % 2 ^ 32) ≠ hl_pi_2_offset q.pi := by
        rw [hl_pi_2_offset_mod, hl_pi_2_offset_mod]
        unfold in_flight at hk hfull
        unfold HL_QUEUE_LENGTH at hfull
        rw [two_pow_32] at hk hfull ⊢
        omega
      simp only [enqueue, if_neg hfull]
      exact ⟨Function.update_noteq hne _ _, Function.update_noteq hne _ _⟩

/-- Witness for C10: a queue with producer index 4096 and consumer index 0 has
all 4096 slots in flight; the enqueue is rejected and the queue is returned
unchanged. -/
theorem enqueue_full_keeps_queue_witness :
    (enqueue (hl_hw_queue.mk (fun s => some (s + 1)) (fun s => some s) 4096 0) 5 6).1 =
      Except.error hl_error.QueueFull ∧
    (enqueue (hl_hw_queue.mk (fun s => some (s + 1)) (fun s => some s) 4096 0) 5 6).2 =
      hl_hw_queue.mk (fun s => some (s + 1)) (fun s => some s) 4096 0 :=
  ⟨((enqueue_full_keeps_queue (hl_hw_queue.mk (fun s => some (s + 1)) (fun s => some s) 4096 0)
      5 6).1 (by decide)).1,
    ((enqueue_full_keeps_queue (hl_hw_queue.mk (fun s => some (s + 1)) (fun s => some s) 4096 0)
      5 6).1 (by decide)).2.1⟩

/-! ## Claims C15 to C20: compile-time guard, polling macros, sync-object constants -/

/-- Counterexample for C15: with `HL_MAX_JOBS_PER_CS` equal to
`HL_QUEUE_LENGTH` the queue length is not greater than the job limit, yet the
`#error` does not fire. -/
theorem queue_length_guard_accepts_equal :
    HL_QUEUE_LENGTH ≤ 4096 ∧ queue_length_guard_fires 4096 HL_QUEUE_LENGTH = false := by
  constructor <;> decide

/-- Claim C15, amended. The compile-time guard accepts a configuration exactly
when `HL_QUEUE_LENGTH` is greater than or equal to `HL_MAX_JOBS_PER_CS`: the
`#error` fires for every pair of values with `HL_QUEUE_LENGTH` below
`HL_MAX_JOBS_PER_CS` and for no other pair, so at equality it does not fire. -/
theorem queue_length_guard_fires_iff (max_jobs_per_cs queue_length : Nat) :
    (queue_length_guard_fires max_jobs_per_cs queue_length = true ↔
      queue_length < max_jobs_per_cs) ∧
    (queue_length_guard_fires max_jobs_per_cs queue_length = false ↔
      max_jobs_per_cs ≤ queue_length) ∧
    queue_length_guard_fires queue_length queue_length = false := by
  refine ⟨?_, ?_, ?_⟩
  · simp [queue_length_guard_fires]
  · simp [queue_length_guard_fires]
  · simp [queue_length_guard_fires]

/-- Counterexample for C16: on a device without PCI device a request of twenty
seconds gets the cap of ten seconds, which is shorter than requested. -/
theorem hl_poll_timeout_offset_shorter :
    hl_poll_timeout_offset false 64 20000000 = 10000000 ∧
    ¬ (20000000 ≤ hl_poll_timeout_offset false 64 20000000) := by
  constructor <;> decide

/-- Claim C16, amended. Without PCI device the timeout applied is longer than
the requested `timeout_us` for every nonzero `timeout_us` below the cap
`HL_SIM_MAX_TIMEOUT_US`, whatever the width of its type; for a `timeout_us` of
`HL_SIM_MAX_TIMEOUT_US` or more the timeout applied is at most the cap and so
not longer than requested, and it is shorter than every request above the
cap. -/
theorem hl_poll_timeout_offset_longer (bits timeout_us : Nat)
    (hpos : 0 < timeout_us) (hcap : timeout_us < HL_SIM_MAX_TIMEOUT_US) :
    timeout_us < hl_poll_timeout_offset false bits timeout_us ∧
    (∀ t, HL_SIM_MAX_TIMEOUT_US ≤ t →
      hl_poll_timeout_offset false bits t ≤ HL_SIM_MAX_TIMEOUT_US ∧
      hl_poll_timeout_offset false bits t ≤ t) ∧
    (∀ t, HL_SIM_MAX_TIMEOUT_US < t → hl_poll_timeout_offset false bits t < t) := by
  have hcapval : HL_SIM_MAX_TIMEOUT_US % 2 ^ 64 = 10000000 := by decide
  have hle : ∀ t, hl_poll_timeout_offset false bits t ≤ 10000000 := by
    intro t
    unfold hl_poll_timeout_offset
    rw [hcapval]
    exact Nat.min_le_right _ _
  unfold HL_SIM_MAX_TIMEOUT_US at hcap ⊢
  refine ⟨?_, ?_, ?_⟩
  · have hprod : (if bits < 32 then timeout_us * 10 else (timeout_us * 10) % 2 ^ bits) % 2 ^ 64 =
        timeout_us * 10 := by
      have h64 : timeout_us * 10 < 2 ^ 64 := by
        have : (100000000 : Nat) < 2 ^ 64 := by norm_num
        omega
      by_cases hb : bits < 32
      · rw [if_pos hb, Nat.mod_eq_of_lt h64]
      · have h32 : (2 : Nat) ^ 32 ≤ 2 ^ bits := Nat.pow_le_pow_right (by norm_num) (by omega)
        have hlt : timeout_us * 10 < 2 ^ bits := by
          have : (100000000 : Nat) < 2 ^ 32 := by norm_num
          omega
        rw [if_neg hb, Nat.mod_eq_of_lt hlt, Nat.mod_eq_of_lt h64]
    unfold hl_poll_timeout_offset
    rw [hcapval]
    simp only [Bool.false_eq_true, if_false]
    rw [hprod]
    omega
  · intro t ht
    have := hle t
    exact ⟨this, by omega⟩
  · intro t ht
    have := hle t
    omega

/-- Witness for C16: a request of one second on a 32-bit `timeout_us`. -/
theorem hl_poll_timeout_offset_longer_witness :
    1000000 < hl_poll_timeout_offset false 32 1000000 :=
  (hl_poll_timeout_offset_longer 32 1000000 (by norm_num) (by decide)).1

/-- Claim C17. For every `timeout_us` of an unsigned type of at most 64 bits:
without PCI device the deadline offset equals
`min(10 * timeout_us, HL_SIM_MAX_TIMEOUT_US)` whenever the tenfold product does
not overflow, which is always so for a type narrower than `int`, and it never
exceeds the cap of 10,000,000 microseconds; with a PCI device the offset is
exactly `timeout_us`. -/
theorem hl_poll_timeout_offset_eq (bits timeout_us : Nat)
    (hbits : bits ≤ 64) (htype : timeout_us < 2 ^ bits) :
    ((bits < 32 ∨ timeout_us * 10 < 2 ^ bits) →
      hl_poll_timeout_offset false bits timeout_us =
        min (10 * timeout_us) HL_SIM_MAX_TIMEOUT_US) ∧
    hl_poll_timeout_offset false bits timeout_us ≤ HL_SIM_MAX_TIMEOUT_US ∧
    HL_SIM_MAX_TIMEOUT_US = 10000000 ∧
    hl_poll_timeout_offset true bits timeout_us = timeout_us := by
  have h64 : (2 : Nat) ^ bits ≤ 2 ^ 64 := Nat.pow_le_pow_right (by norm_num) hbits
  have hcapval : HL_SIM_MAX_TIMEOUT_US % 2 ^ 64 = HL_SIM_MAX_TIMEOUT_US := by decide
  refine ⟨?_, ?_, rfl, ?_⟩
  · intro hfit
    have hprod : (if bits < 32 then timeout_us * 10 else (timeout_us * 10) % 2 ^ bits) % 2 ^ 64 =
        10 * timeout_us := by
      by_cases hb : bits < 32
      · have h32 : (2 : Nat) ^ bits ≤ 2 ^ 32 := Nat.pow_le_pow_right (by norm_num) (by omega)
        have hlt : timeout_us * 10 < 2 ^ 64 := by
          have : (2 : Nat) ^ 32 * 10 < 2 ^ 64 := by norm_num
          omega
        rw [if_pos hb, Nat.mod_eq_of_lt hlt, Nat.mul_comm]
      · have hlt : timeout_us * 10 < 2 ^ bits := by
          rcases hfit with h | h
          · exact absurd h hb
          · exact h
        rw [if_neg hb, Nat.mod_eq_of_lt hlt, Nat.mod_eq_of_lt (lt_of_lt_of_le hlt h64),
          Nat.mul_comm]
    unfold hl_poll_timeout_offset
    rw [hcapval]
    simp only [Bool.false_eq_true, if_false]
    rw [hprod]
  · unfold hl_poll_timeout_offset
    rw [hcapval]
    exact Nat.min_le_right _ _
  · unfold hl_poll_timeout_offset
    simp only [if_true]
    exact Nat.mod_eq_of_lt (lt_of_lt_of_le htype h64)

/-- Witness for C17: with a PCI device a 32-bit request of 429,496,730
microseconds, whose tenfold product would wrap, is applied unchanged; without
PCI device five seconds reach the cap. -/
theorem hl_poll_timeout_offset_eq_witness :
    hl_poll_timeout_offset true 32 429496730 = 429496730 ∧
    hl_poll_timeout_offset false 32 5000000 = min (10 * 5000000) HL_SIM_MAX_TIMEOUT_US :=
  ⟨(hl_poll_timeout_offset_eq 32 429496730 (by norm_num) (by norm_num)).2.2.2,
    (hl_poll_timeout_offset_eq 32 5000000 (by norm_num) (by norm_num)).1
      (Or.inr (by norm_num))⟩

/-- Claim C18. Whenever `hl_poll_timeout` returns, its value is 0 exactly when
`cond` holds for the value last read into `val` and `-ETIMEDOUT` otherwise. In
particular, if `cond` fails on the reads of the loop, the deadline has passed
at check `k` and `cond` holds for the extra read made after that, the macro
returns 0 with the extra read in `val`. -/
theorem hl_poll_timeout_ret (ETIMEDOUT : Nat) (pdev : Bool) (bits : Nat) (cond : Nat → Bool)
    (reads clock : Nat → Nat) (timeout_us : Nat) (hE : 0 < ETIMEDOUT) :
    (∀ fuel r, hl_poll_timeout ETIMEDOUT pdev bits cond reads clock timeout_us fuel = some r →
      (r.ret = 0 ↔ cond r.val = true) ∧
      (r.ret = -(ETIMEDOUT : Int) ↔ cond r.val = false) ∧
      1 ≤ r.reads_done ∧ r.val = reads (r.reads_done - 1)) ∧
    (∀ k fuel, k < fuel → timeout_us ≠ 0 →
      (∀ j, j ≤ k → cond (reads j) = false) →
      (∀ j, j < k → clock (j + 1) ≤
        clock 0 + 1000 * hl_poll_timeout_offset pdev bits timeout_us) →
      clock 0 + 1000 * hl_poll_timeout_offset pdev bits timeout_us < clock (k + 1) →
      cond (reads (k + 1)) = true →
      hl_poll_timeout ETIMEDOUT pdev bits cond reads clock timeout_us fuel =
        some { ret := 0, val := reads (k + 1), reads_done := k + 2 }) := by
  constructor
  · intro fuel r hrun
    unfold hl_poll_timeout at hrun
    cases hl : poll_loop cond reads clock timeout_us
        (clock 0 + 1000 * hl_poll_timeout_offset pdev bits timeout_us) fuel 0 with
    | none =>
      rw [hl] at hrun
      simp at hrun
    | some p =>
      rw [hl] at hrun
      simp only [Option.map_some', Option.some.injEq] at hrun
      subst hrun
      obtain ⟨v, n⟩ := p
      obtain ⟨h1, h2, -⟩ := poll_loop_some cond reads clock timeout_us _ fuel 0 v n hl
      have hne : -(ETIMEDOUT : Int) ≠ 0 := by omega
      refine ⟨?_, ?_, by simpa using h1, h2⟩
      · by_cases hc : cond v = true
        · simp [hc]
        · simp [hc, hne]
      · by_cases hc : cond v = true
        · simp only [hc, if_true]
          constructor
          · intro h
            omega
          · intro h
            simp at h
        · simp [hc]
  · intro k fuel hf hto hc hk hd hlast
    unfold hl_poll_timeout
    have := poll_loop_timeout cond reads clock timeout_us
      (clock 0 + 1000 * hl_poll_timeout_offset pdev bits timeout_us) hto k 0 fuel hf
      (fun j _ h2 => hc j (by omega)) (fun j _ h2 => hk j (by omega))
      (by rw [Nat.zero_add]; exact hd)
    rw [this]
    simp [hlast]

/-- Witness for C18: the register turns to 1 only at the second read, the
deadline of one microsecond has passed at the first check, and the extra read
finds the condition true, so the value is 0. -/
theorem hl_poll_timeout_ret_witness :
    hl_poll_timeout 110 true 32 (fun v => v == 1) (fun i => if i = 0 then 0 else 1)
        (fun i => i * 1000000) 1 4 =
      some { ret := 0, val := 1, reads_done := 2 } :=
  (hl_poll_timeout_ret 110 true 32 (fun v => v == 1) (fun i => if i = 0 then 0 else 1)
    (fun i => i * 1000000) 1 (by norm_num)).2 0 4 (by norm_num) (by norm_num)
    (by intro j hj; have : j = 0 := by omega
        subst this; rfl)
    (by intro j hj; omega) (by decide) (by decide)

/-- Claim C19. With `timeout_us = 0`, `hl_poll_timeout` never returns
`-ETIMEDOUT`: every returning run yields 0 with `cond` true for `val`, a run in
which `cond` never becomes true is still in the loop after any number of
iterations, and a run in which `cond` becomes true does return. -/
theorem hl_poll_timeout_zero (ETIMEDOUT : Nat) (pdev : Bool) (bits : Nat) (cond : Nat → Bool)
    (reads clock : Nat → Nat) (hE : 0 < ETIMEDOUT) :
    (∀ fuel r, hl_poll_timeout ETIMEDOUT pdev bits cond reads clock 0 fuel = some r →
      r.ret = 0 ∧ r.ret ≠ -(ETIMEDOUT : Int) ∧ cond r.val = true) ∧
    ((∀ i, cond (reads i) = false) →
      ∀ fuel, hl_poll_timeout ETIMEDOUT pdev bits cond reads clock 0 fuel = none) ∧
    (∀ k, cond (reads k) = true →
      (hl_poll_timeout ETIMEDOUT pdev bits cond reads clock 0 (k + 1)).isSome = true) := by
  refine ⟨?_, ?_, ?_⟩
  · intro fuel r hrun
    unfold hl_poll_timeout at hrun
    cases hl : poll_loop cond reads clock 0
        (clock 0 + 1000 * hl_poll_timeout_offset pdev bits 0) fuel 0 with
    | none =>
      rw [hl] at hrun
      simp at hrun
    | some p =>
      rw [hl] at hrun
      simp only [Option.map_some', Option.some.injEq] at hrun
      subst hrun
      obtain ⟨v, n⟩ := p
      obtain ⟨-, -, h3⟩ := poll_loop_some cond reads clock 0 _ fuel 0 v n hl
      have hc : cond v = true := by
        rcases h3 with h | h
        · exact h
        · exact absurd rfl h
      simp only [hc, if_true]
      exact ⟨trivial, by omega, trivial⟩
  · intro hnever fuel
    unfold hl_poll_timeout
    rw [poll_loop_none cond reads clock _ fuel 0 (fun j _ => hnever j)]
    rfl
  · intro k hk
    unfold hl_poll_timeout
    have := poll_loop_terminates cond reads clock 0
      (clock 0 + 1000 * hl_poll_timeout_offset pdev bits 0) k 0 (by rw [Nat.zero_add]; exact hk)
    simpa using this

/-- Witness for C19: the register turns to 1 at the third read; with
`timeout_us = 0` the run returns 0 although the clock is far ahead. -/
theorem hl_poll_timeout_zero_witness :
    hl_poll_timeout 110 false 32 (fun v => v == 1) (fun i => if i < 2 then 0 else 1)
        (fun i => i * 1000000000) 0 5 =
      some { ret := 0, val := 1, reads_done := 3 } ∧
    (poll_result.mk 0 1 3).ret = 0 :=
  ⟨by decide,
    ((hl_poll_timeout_zero 110 false 32 (fun v => v == 1) (fun i => if i < 2 then 0 else 1)
      (fun i => i * 1000000000) (by norm_num)).1 5 { ret := 0, val := 1, reads_done := 3 }
      (by decide)).1⟩

/-- Claim C20. The semaphore value bound `HL_MAX_SOB_VAL`, which is `1 << 15`,
is at most 65535, so every SOB value from 0 up to and including
`HL_MAX_SOB_VAL` is kept unchanged by a store into the 16-bit fields
`next_sob_val` and `sob_val`; likewise `HL_RSVD_SOBS_IN_USE <= HL_RSVD_SOBS`
and `HL_RSVD_MONS_IN_USE <= HL_RSVD_MONS`. -/
theorem HL_MAX_SOB_VAL_fits_u16 :
    HL_MAX_SOB_VAL = 32768 ∧ HL_MAX_SOB_VAL ≤ 65535 ∧
    (∀ v, v ≤ HL_MAX_SOB_VAL → store_u16 v = v) ∧
    HL_RSVD_SOBS_IN_USE ≤ HL_RSVD_SOBS ∧ HL_RSVD_MONS_IN_USE ≤ HL_RSVD_MONS := by
  have h : HL_MAX_SOB_VAL = 32768 := by decide
  refine ⟨h, by rw [h]; norm_num, ?_, by decide, by decide⟩
  intro v hv
  unfold store_u16
  rw [h] at hv
  apply Nat.mod_eq_of_lt
  norm_num
  omega

/-- Witness for C20: the largest SOB value itself is stored unchanged. -/
theorem HL_MAX_SOB_VAL_fits_u16_witness : store_u16 HL_MAX_SOB_VAL = HL_MAX_SOB_VAL :=
  HL_MAX_SOB_VAL_fits_u16.2.2.1 HL_MAX_SOB_VAL (le_refl _)

/-! ## Claims C11 to C13: page tables and rollback -/

/-- Claim C11. For every context, virtual address `va`, physical address `pa`
and page size, `hl_mmu_map` followed immediately by a translation lookup of
`va` returns `pa`, and `hl_mmu_unmap` followed by a lookup of `va` reports that
`va` is unmapped. -/
theorem hl_mmu_map_lookup_roundtrip (p : hl_mmu_properties) (last_hop : Nat → Nat)
    (ctx : hl_mmu_ctx) (va pa page_size : Nat) :
    hl_mmu_lookup p (hl_mmu_map p last_hop ctx va pa page_size) va = Except.ok pa ∧
    hl_mmu_lookup p (hl_mmu_unmap p ctx va page_size).2 va =
      Except.error hl_mmu_error.Unmapped ∧
    hl_mmu_lookup p
      (hl_mmu_unmap p (hl_mmu_map p last_hop ctx va pa page_size) va page_size).2 va =
        Except.error hl_mmu_error.Unmapped := by
  have hunmap : ∀ c : hl_mmu_ctx, hl_mmu_lookup p (hl_mmu_unmap p c va page_size).2 va =
      Except.error hl_mmu_error.Unmapped := by
    intro c
    unfold hl_mmu_lookup hl_mmu_unmap
    cases hrun : unmap_walk p va 5 0 c.mmu_shadow_hash with
    | none =>
      simp only
      rw [unmap_walk_none p va c.mmu_shadow_hash 5 0 hrun]
    | some r =>
      obtain ⟨h1, b⟩ := r
      simp only
      rw [unmap_walk_some p va 5 0 c.mmu_shadow_hash h1 b hrun]
  refine ⟨?_, hunmap ctx, hunmap _⟩
  unfold hl_mmu_lookup hl_mmu_map
  have hroot : ((match ctx.mmu_shadow_hash [] with
      | some _ => ctx.mmu_shadow_hash
      | none => Function.update ctx.mmu_shadow_hash [] (some empty_hop)) (hop_key p va 0)).isSome
      = true := by
    have hk : hop_key p va 0 = [] := rfl
    rw [hk]
    cases hr : ctx.mmu_shadow_hash [] with
    | none => simp
    | some node => simp [hr]
  simp only
  rw [map_walk_lookup p va pa (min (last_hop page_size) 4) 0 _ 5 hroot (by omega)]

/-- Claim C12. A page-table hop node is freed only when its `num_of_ptes`
counter, decremented for the PTE that is cleared, is exactly zero: a hop that
`hl_mmu_unmap` removes from `mmu_shadow_hash` had the counter 1 and is not the
root, and `hl_mmu_map` removes no hop. After every PTE under a hop has been
unmapped the hop is removed: in every state reached from a fresh context by
map and unmap operations, a hop other than the root that is in
`mmu_shadow_hash` has a live PTE and a counter of at least 1. -/
theorem pgt_info_freed_at_zero (p : hl_mmu_properties) (last_hop : Nat → Nat) :
    (∀ (ctx : hl_mmu_ctx) (va page_size : Nat) (key : List Nat) (node : pgt_info),
      ctx.mmu_shadow_hash key = some node →
      (hl_mmu_unmap p ctx va page_size).2.mmu_shadow_hash key = none →
        node.num_of_ptes - 1 = 0 ∧ key ≠ []) ∧
    (∀ (ctx : hl_mmu_ctx) (va pa page_size : Nat) (key : List Nat),
      ctx.mmu_shadow_hash key ≠ none →
        (hl_mmu_map p last_hop ctx va pa page_size).mmu_shadow_hash key ≠ none) ∧
    (∀ (ops : List mmu_op) (key : List Nat) (node : pgt_info),
      (mmu_run p last_hop hl_mmu_ctx_init ops).mmu_shadow_hash key = some node → key ≠ [] →
        (∃ i, node.ptes i ≠ hl_pte.invalid) ∧ 1 ≤ node.num_of_ptes) := by
  refine ⟨?_, ?_, ?_⟩
  · intro ctx va page_size key node hnode hfree
    unfold hl_mmu_unmap at hfree
    cases hrun : unmap_walk p va 5 0 ctx.mmu_shadow_hash with
    | none =>
      rw [hrun] at hfree
      simp only at hfree
      rw [hnode] at hfree
      cases hfree
    | some r =>
      obtain ⟨h1, b⟩ := r
      rw [hrun] at hfree
      exact unmap_walk_freed p va 5 0 ctx.mmu_shadow_hash h1 b hrun key node hnode hfree
  · intro ctx va pa page_size key hkey
    unfold hl_mmu_map
    apply map_walk_present
    cases hr : ctx.mmu_shadow_hash [] with
    | none =>
      simp only
      by_cases hk : key = []
      · rw [hk, Function.update_same]
        simp
      · rw [Function.update_noteq hk]
        exact hkey
    | some node0 =>
      simp only
      exact hkey
  · intro ops key node hnode hne
    obtain ⟨S, hS1, hS2, hS3⟩ :=
      mmu_run_inv p last_hop ops hl_mmu_ctx_init pgt_inv_init key node hnode
    obtain ⟨i, hi⟩ := hS3 hne (fun hf => hf)
    refine ⟨⟨i, (hS1 i).mpr hi⟩, ?_⟩
    rw [hS2]
    have : 1 ≤ S.card := Finset.card_pos.mpr ⟨i, hi⟩
    omega

/-- Witness for C12: one page is mapped through five hops and unmapped again;
the hop of level 1 on its walk was in `mmu_shadow_hash` with counter 1 and is
gone afterwards. -/
theorem pgt_info_freed_at_zero_witness :
    ∃ node,
      (hl_mmu_map (hl_mmu_properties.mk 0 0 48 39 30 21 12 0x3000000000000 0xFF8000000000
          0x7FC0000000 0x3FE00000 0x1FF000 4096) (fun ps => if ps = 4096 then 4 else 3)
        hl_mmu_ctx_init 0x12345000 0x777000 4096).mmu_shadow_hash [0] = some node ∧
      (hl_mmu_unmap (hl_mmu_properties.mk 0 0 48 39 30 21 12 0x3000000000000 0xFF8000000000
          0x7FC0000000 0x3FE00000 0x1FF000 4096)
        (hl_mmu_map (hl_mmu_properties.mk 0 0 48 39 30 21 12 0x3000000000000 0xFF8000000000
            0x7FC0000000 0x3FE00000 0x1FF000 4096) (fun ps => if ps = 4096 then 4 else 3)
          hl_mmu_ctx_init 0x12345000 0x777000 4096)
        0x12345000 4096).2.mmu_shadow_hash [0] = none ∧
      node.num_of_ptes - 1 = 0 :=
  ⟨_, rfl, rfl,
    ((pgt_info_freed_at_zero (hl_mmu_properties.mk 0 0 48 39 30 21 12 0x3000000000000
        0xFF8000000000 0x7FC0000000 0x3FE00000 0x1FF000 4096)
      (fun ps => if ps = 4096 then 4 else 3)).1
      (hl_mmu_map (hl_mmu_properties.mk 0 0 48 39 30 21 12 0x3000000000000 0xFF8000000000
          0x7FC0000000 0x3FE00000 0x1FF000 4096) (fun ps => if ps = 4096 then 4 else 3)
        hl_mmu_ctx_init 0x12345000 0x777000 4096)
      0x12345000 4096 [0] _ rfl rfl).1⟩

/-- Claim C13. The rollback is idempotent: a second call right after the first
signals no fence and leaves every command submission as the first call left
it, so over the two calls no fence is signaled twice, and the fences signaled
are those of the submissions that were pending; a command submission that was
completed before the rollback runs is left untouched. -/
theorem hl_cs_rollback_all_idempotent (dev : List hl_cs) :
    hl_cs_rollback_all (hl_cs_rollback_all dev).1 = ((hl_cs_rollback_all dev).1, []) ∧
    (hl_cs_rollback_all dev).2.length + (hl_cs_rollback_all (hl_cs_rollback_all dev).1).2.length =
      (dev.filter cs_pending_rollback).length ∧
    (∀ (i : Nat) (cs : hl_cs), dev[i]? = some cs →
      ∃ cs2 : hl_cs, (hl_cs_rollback_all (hl_cs_rollback_all dev).1).1[i]? = some cs2 ∧
        cs2.fence_signals ≤ cs.fence_signals + 1 ∧
        (cs.fence_signals ≠ 0 → cs2.fence_signals = cs.fence_signals) ∧
        (cs.completed = true → cs2 = cs)) := by
  have hsecond : hl_cs_rollback_all (hl_cs_rollback_all dev).1 =
      ((hl_cs_rollback_all dev).1, []) := by
    unfold hl_cs_rollback_all
    simp only [List.map_map, Prod.mk.injEq, List.map_eq_nil_iff, List.filter_eq_nil_iff,
      List.mem_map, forall_exists_index, and_imp, forall_apply_eq_imp_iff₂]
    constructor
    · apply List.map_congr_left
      intro cs _
      exact cs_rollback_idem cs
    · intro cs _
      rw [cs_rollback_not_pending]
      simp
  refine ⟨hsecond, ?_, ?_⟩
  · rw [hsecond]
    simp [hl_cs_rollback_all]
  · intro i cs hi
    rw [hsecond]
    refine ⟨cs_rollback cs, by simp [hl_cs_rollback_all, hi], ?_, ?_, ?_⟩
    · unfold cs_rollback
      split_ifs
      · exact le_refl _
      · exact Nat.le_succ _
    · intro hne
      unfold cs_rollback
      rw [if_neg]
      simp [cs_pending_rollback, hne]
    · intro hc
      unfold cs_rollback
      rw [if_neg]
      simp [cs_pending_rollback, hc]

/-- Witness for C13: a device with one pending and one completed command
submission; the second rollback returns the state of the first and signals
nothing. -/
theorem hl_cs_rollback_all_idempotent_witness :
    hl_cs_rollback_all (hl_cs_rollback_all
        [hl_cs.mk 7 true false false true false true 0 false [3, 4],
          hl_cs.mk 6 true true false false false true 1 false []]).1 =
      ([hl_cs.mk 7 true false false true true false 1 true [],
          hl_cs.mk 6 true true false false false true 1 false []], []) ∧
    (hl_cs_rollback_all
        [hl_cs.mk 7 true false false true false true 0 false [3, 4],
          hl_cs.mk 6 true true false false false true 1 false []]).2 = [7] ∧
    ∃ cs2 : hl_cs, (hl_cs_rollback_all (hl_cs_rollback_all
        [hl_cs.mk 7 true false false true false true 0 false [3, 4],
          hl_cs.mk 6 true true false false false true 1 false []]).1).1[1]? = some cs2 ∧
      cs2.fence_signals ≤ 1 + 1 :=
  ⟨by decide, by decide,
    (((hl_cs_rollback_all_idempotent
        [hl_cs.mk 7 true false false true false true 0 false [3, 4],
          hl_cs.mk 6 true true false false false true 1 false []]).2.2 1
        (hl_cs.mk 6 true true false false false true 1 false []) rfl).imp
      (fun _ h => ⟨h.1, h.2.1⟩))⟩

end Habanalabs
